import Mathlib

/-!
Verification of the page-generation layer of the HTMLStaticSite static site
generator (`src/gencontent.py`).

Strings are modelled as `List Char`.  Python's `str.replace(pat, rep)`
(left-to-right, non-overlapping replacement of every occurrence) is modelled
by `repl`; all patterns used by the program are nonempty literals.
-/

set_option autoImplicit false

namespace Gencontent

/-- The template token `{{ Title }}` (line 21 of gencontent.py). -/
def tokTitle : List Char :=
  ['\x7b', '\x7b', ' ', 'T', 'i', 't', 'l', 'e', ' ', '\x7d', '\x7d']

/-- The template token `{{ Content }}` (line 22 of gencontent.py). -/
def tokContent : List Char :=
  ['\x7b', '\x7b', ' ', 'C', 'o', 'n', 't', 'e', 'n', 't', ' ', '\x7d', '\x7d']

/-- The 6 characters `href="`. -/
def hrefQuote : List Char := ['h', 'r', 'e', 'f', '=', '"']

/-- The 5 characters `src="`. -/
def srcQuote : List Char := ['s', 'r', 'c', '=', '"']

/-- The deploy-time marker token `HTMLStaticSite`. -/
def siteTail : List Char :=
  ['H', 'T', 'M', 'L', 'S', 't', 'a', 't', 'i', 'c', 'S', 'i', 't', 'e']

/-- The pattern `href="HTMLStaticSite` (line 31 of gencontent.py). -/
def hrefSite : List Char := hrefQuote ++ siteTail

/-- The pattern `src="HTMLStaticSite` (line 32 of gencontent.py). -/
def srcSite : List Char := srcQuote ++ siteTail

/-- The pattern `href="/` (line 33 of gencontent.py). -/
def hrefSlash : List Char := hrefQuote ++ ['/']

/-- The pattern `src="/` (line 34 of gencontent.py). -/
def srcSlash : List Char := srcQuote ++ ['/']

/-- The extension `.md` (lines 44 and 50 of gencontent.py). -/
def mdSuffix : List Char := ['.', 'm', 'd']

/-- The extension `.html` (line 50 of gencontent.py). -/
def htmlSuffix : List Char := ['.', 'h', 't', 'm', 'l']

/-- The message of the `ValueError` raised by `extract_title`
(line 9 of gencontent.py). -/
def errNoTitle : List Char :=
  ['N', 'o', ' ', 't', 'i', 't', 'l', 'e', ' ', 'f', 'o', 'u', 'n', 'd',
   ' ', 'i', 'n', ' ', 'm', 'a', 'r', 'k', 'd', 'o', 'w', 'n']

/-- The two characters `# ` looked for by `extract_title`
(line 7 of gencontent.py). -/
def hashSpace : List Char := ['#', ' ']

/-- Fuel-driven core of Python's `str.replace`: scan left to right; at each
position, if the (nonempty) pattern `p` matches, emit the replacement `r` and
skip past the match, otherwise keep the character.  Fuel at least the length
of the scanned list is always enough, since every step consumes at least one
character. -/
def replF (p r : List Char) : Nat → List Char → List Char
  | _, [] => []
  | 0, s => s
  | n + 1, c :: rest =>
    if p.isPrefixOf (c :: rest) then
      r ++ replF p r n (List.drop (p.length - 1) rest)
    else
      c :: replF p r n rest

theorem replF_mono (p r : List Char) :
    ∀ (n m : Nat) (s : List Char), s.length ≤ n → s.length ≤ m →
      replF p r n s = replF p r m s := by
  intro n
  induction n with
  | zero =>
    intro m s hn _
    have : s = [] := List.eq_nil_of_length_eq_zero (Nat.le_zero.mp hn)
    subst this
    cases m <;> rfl
  | succ n ih =>
    intro m s hn hm
    cases s with
    | nil => cases m <;> rfl
    | cons c rest =>
      cases m with
      | zero => exact absurd hm (by simp)
      | succ m =>
        have hrn : rest.length ≤ n := by simpa using hn
        have hrm : rest.length ≤ m := by simpa using hm
        have hlen : (List.drop (p.length - 1) rest).length ≤ rest.length := by
          simp [List.length_drop]
        simp only [replF]
        cases hp : p.isPrefixOf (c :: rest) with
        | true =>
          simp only [if_pos]
          rw [ih _ _ (le_trans hlen hrn) (le_trans hlen hrm)]
        | false =>
          simp only [Bool.false_eq_true, if_neg, not_false_iff]
          rw [ih _ _ hrn hrm]

/-- Python's `s.replace(p, r)` for a nonempty pattern `p`. -/
def repl (p r s : List Char) : List Char := replF p r s.length s

@[simp] theorem repl_nil (p r : List Char) : repl p r [] = [] := rfl

theorem repl_cons (p r : List Char) (c : Char) (rest : List Char) :
    repl p r (c :: rest) =
      if p.isPrefixOf (c :: rest) then
        r ++ repl p r (List.drop (p.length - 1) rest)
      else
        c :: repl p r rest := by
  show replF p r (rest.length + 1) (c :: rest) = _
  simp only [replF]
  cases hp : p.isPrefixOf (c :: rest) with
  | true =>
    simp only [if_pos]
    exact congrArg (r ++ ·)
      (replF_mono p r rest.length (List.drop (p.length - 1) rest).length
        (List.drop (p.length - 1) rest) (by simp [List.length_drop]) (le_refl _))
  | false =>
    simp only [Bool.false_eq_true, if_neg, not_false_iff]
    rfl

-- sanity checks of the embedding against Python behaviour
example : repl ['a', 'a'] ['b'] ['a', 'a', 'a'] = ['b', 'a'] := by decide
example : repl ['a'] ['x', 'y'] ['a', 'b', 'a'] = ['x', 'y', 'b', 'x', 'y'] := by decide
example : repl mdSuffix htmlSuffix ("a.md.md".data) = "a.html.html".data := by decide

/-- Fuel-driven simultaneous rewriter: one left-to-right pass over the input,
trying the pattern/replacement pairs of `L` in order at each position.  Unlike
iterated `repl`, replacement text is never scanned again. -/
def simulF (L : List (List Char × List Char)) : Nat → List Char → List Char
  | _, [] => []
  | 0, s => s
  | n + 1, c :: rest =>
    match L.find? (fun pr => pr.1.isPrefixOf (c :: rest)) with
    | some pr => pr.2 ++ simulF L n (List.drop (pr.1.length - 1) rest)
    | none => c :: simulF L n rest

theorem simulF_mono (L : List (List Char × List Char)) :
    ∀ (n m : Nat) (s : List Char), s.length ≤ n → s.length ≤ m →
      simulF L n s = simulF L m s := by
  intro n
  induction n with
  | zero =>
    intro m s hn _
    have : s = [] := List.eq_nil_of_length_eq_zero (Nat.le_zero.mp hn)
    subst this
    cases m <;> rfl
  | succ n ih =>
    intro m s hn hm
    cases s with
    | nil => cases m <;> rfl
    | cons c rest =>
      cases m with
      | zero => exact absurd hm (by simp)
      | succ m =>
        have hrn : rest.length ≤ n := by simpa using hn
        have hrm : rest.length ≤ m := by simpa using hm
        simp only [simulF]
        cases hf : L.find? (fun pr => pr.1.isPrefixOf (c :: rest)) with
        | some pr =>
          have hlen : (List.drop (pr.1.length - 1) rest).length ≤ rest.length := by
            simp [List.length_drop]
          dsimp only
          rw [ih _ _ (le_trans hlen hrn) (le_trans hlen hrm)]
        | none =>
          dsimp only
          rw [ih _ _ hrn hrm]

/-- One simultaneous left-to-right rewriting pass with pattern list `L`. -/
def simul (L : List (List Char × List Char)) (s : List Char) : List Char :=
  simulF L s.length s

@[simp] theorem simul_nil (L : List (List Char × List Char)) : simul L [] = [] := rfl

theorem simul_cons (L : List (List Char × List Char)) (c : Char) (rest : List Char) :
    simul L (c :: rest) =
      match L.find? (fun pr => pr.1.isPrefixOf (c :: rest)) with
      | some pr => pr.2 ++ simul L (List.drop (pr.1.length - 1) rest)
      | none => c :: simul L rest := by
  show simulF L (rest.length + 1) (c :: rest) = _
  simp only [simulF]
  cases hf : L.find? (fun pr => pr.1.isPrefixOf (c :: rest)) with
  | some pr =>
    exact congrArg (pr.2 ++ ·)
      (simulF_mono L rest.length (List.drop (pr.1.length - 1) rest).length
        (List.drop (pr.1.length - 1) rest) (by simp [List.length_drop]) (le_refl _))
  | none => rfl

/-- `repl` is the special case of `simul` with a single pattern. -/
theorem repl_eq_simul (p r : List Char) :
    ∀ (n : Nat) (s : List Char), s.length ≤ n → repl p r s = simul [(p, r)] s := by
  intro n
  induction n with
  | zero =>
    intro s hn
    have : s = [] := List.eq_nil_of_length_eq_zero (Nat.le_zero.mp hn)
    subst this; rfl
  | succ n ih =>
    intro s hn
    cases s with
    | nil => rfl
    | cons c rest =>
      have hrn : rest.length ≤ n := by simpa using hn
      have hlen : (List.drop (p.length - 1) rest).length ≤ rest.length := by
        simp [List.length_drop]
      rw [repl_cons, simul_cons]
      cases hp : p.isPrefixOf (c :: rest) with
      | true =>
        simp only [List.find?, hp, if_pos]
        rw [ih _ (le_trans hlen hrn)]
      | false =>
        simp only [List.find?, hp, Bool.false_eq_true, if_neg, not_false_iff]
        rw [ih _ hrn]

/-- Greedy left-to-right split of a list at every (non-overlapping) occurrence
of the nonempty pattern `p`; the semantics of Python's `str.split(p)`. -/
def splitF (p : List Char) : Nat → List Char → List (List Char)
  | _, [] => [[]]
  | 0, s => [s]
  | n + 1, c :: rest =>
    if p.isPrefixOf (c :: rest) then
      [] :: splitF p n (List.drop (p.length - 1) rest)
    else
      match splitF p n rest with
      | [] => [[c]]
      | l :: ls => (c :: l) :: ls

theorem splitF_mono (p : List Char) :
    ∀ (n m : Nat) (s : List Char), s.length ≤ n → s.length ≤ m →
      splitF p n s = splitF p m s := by
  intro n
  induction n with
  | zero =>
    intro m s hn _
    have : s = [] := List.eq_nil_of_length_eq_zero (Nat.le_zero.mp hn)
    subst this
    cases m <;> rfl
  | succ n ih =>
    intro m s hn hm
    cases s with
    | nil => cases m <;> rfl
    | cons c rest =>
      cases m with
      | zero => exact absurd hm (by simp)
      | succ m =>
        have hrn : rest.length ≤ n := by simpa using hn
        have hrm : rest.length ≤ m := by simpa using hm
        have hlen : (List.drop (p.length - 1) rest).length ≤ rest.length := by
          simp [List.length_drop]
        simp only [splitF]
        cases hp : p.isPrefixOf (c :: rest) with
        | true =>
          simp only [if_pos]
          rw [ih _ _ (le_trans hlen hrn) (le_trans hlen hrm)]
        | false =>
          simp only [Bool.false_eq_true, if_neg, not_false_iff]
          rw [ih _ _ hrn hrm]

/-- Python's `s.split(p)` for a nonempty pattern `p`. -/
def splitOnL (p s : List Char) : List (List Char) := splitF p s.length s

@[simp] theorem splitOnL_nil (p : List Char) : splitOnL p [] = [[]] := rfl

theorem splitOnL_cons (p : List Char) (c : Char) (rest : List Char) :
    splitOnL p (c :: rest) =
      if p.isPrefixOf (c :: rest) then
        [] :: splitOnL p (List.drop (p.length - 1) rest)
      else
        match splitOnL p rest with
        | [] => [[c]]
        | l :: ls => (c :: l) :: ls := by
  show splitF p (rest.length + 1) (c :: rest) = _
  simp only [splitF]
  cases hp : p.isPrefixOf (c :: rest) with
  | true =>
    simp only [if_pos]
    exact congrArg ([] :: ·)
      (splitF_mono p rest.length (List.drop (p.length - 1) rest).length
        (List.drop (p.length - 1) rest) (by simp [List.length_drop]) (le_refl _))
  | false =>
    simp only [Bool.false_eq_true, if_neg, not_false_iff]
    rfl

/-- Joining a list of parts with the separator `sep`; the semantics of
Python's `sep.join(parts)`. -/
def joinSep (sep : List Char) : List (List Char) → List Char
  | [] => []
  | [x] => x
  | x :: y :: rest => x ++ sep ++ joinSep sep (y :: rest)

/-- Does the pattern `p` occur as a contiguous substring? -/
def occursIn (p : List Char) : List Char → Bool
  | [] => p.isEmpty
  | c :: rest => p.isPrefixOf (c :: rest) || occursIn p rest

example : occursIn ['b', 'c'] ['a', 'b', 'c', 'd'] = true := by decide
example : occursIn ['c', 'b'] ['a', 'b', 'c', 'd'] = false := by decide

/-- Python's `s.rstrip("/")`: remove every trailing `'/'`. -/
def rstripSlash : List Char → List Char
  | [] => []
  | c :: rest =>
    match rstripSlash rest with
    | [] => if c = '/' then [] else [c]
    | r => c :: r

example : rstripSlash ("/myrepo//".data) = "/myrepo".data := by decide
example : rstripSlash ("/".data) = [] := by decide

instance exceptDecEq {α β : Type} [DecidableEq α] [DecidableEq β] :
    DecidableEq (Except α β) := fun x y =>
  match x, y with
  | Except.ok a, Except.ok b =>
    if h : a = b then Decidable.isTrue (by rw [h])
    else Decidable.isFalse (fun hc => h (Except.ok.inj hc))
  | Except.error a, Except.error b =>
    if h : a = b then Decidable.isTrue (by rw [h])
    else Decidable.isFalse (fun hc => h (Except.error.inj hc))
  | Except.ok _, Except.error _ => Decidable.isFalse (fun hc => Except.noConfusion hc)
  | Except.error _, Except.ok _ => Decidable.isFalse (fun hc => Except.noConfusion hc)

/-! ## Embedding of `src/gencontent.py` -/

/-- The loop of `extract_title` (lines 6-8): scan the lines top to bottom and
return the remainder (after the two leading characters `# `) of the first line
that starts with `# `. -/
def findTitle : List (List Char) → Option (List Char)
  | [] => none
  | line :: rest =>
    if hashSpace.isPrefixOf line then some (line.drop 2) else findTitle rest

/-- `extract_title(md)` (lines 4-9): split the document at every newline,
return the first `# `-heading's remainder, or raise
`ValueError("No title found in markdown")` if there is none. -/
def extract_title (md : List Char) : Except (List Char) (List Char) :=
  match findTitle (splitOnL ['\n'] md) with
  | some t => Except.ok t
  | none => Except.error errNoTitle

/-- Lines 27-28: `if not basepath.endswith("/"): basepath += "/"`. -/
def normalizeBasepath (basepath : List Char) : List Char :=
  if basepath.getLast? = some '/' then basepath else basepath ++ ['/']

/-- Lines 21-22: `html = template.replace("{{ Title }}", title)` followed by
`html = html.replace("{{ Content }}", html_content)`. -/
def substituteTemplate (template title content : List Char) : List Char :=
  repl tokContent content (repl tokTitle title template)

/-- Lines 31-34, applied to the already-normalized base path: the four chained
replacements
`href="HTMLStaticSite` -> `href="{basepath}`,
`src="HTMLStaticSite` -> `src="{basepath}`,
`href="/` -> `href="{basepath.rstrip("/")}/`,
`src="/` -> `src="{basepath.rstrip("/")}/`, in this order. -/
def rewriteLinks (basepath html : List Char) : List Char :=
  repl srcSlash (srcQuote ++ (rstripSlash basepath ++ ['/']))
    (repl hrefSlash (hrefQuote ++ (rstripSlash basepath ++ ['/']))
      (repl srcSite (srcQuote ++ basepath)
        (repl hrefSite (hrefQuote ++ basepath) html)))

/-- The pure content transformation of `generate_page` (lines 11-39).
`markdown` is the text read from `input_path`, `template` the text read from
`template_path`, and `render` stands for the external collaborator
`markdown_to_html_node(markdown).to_html()`.  `Except.ok html` means `html`
is the exact string written to `output_path`; `Except.error e` means the
exception `e` propagates and nothing is written (the write on line 38 runs
only after title extraction on line 15 succeeded). -/
def generate_page_core (render : List Char → List Char)
    (markdown template basepath : List Char) : Except (List Char) (List Char) :=
  match extract_title markdown with
  | Except.error e => Except.error e
  | Except.ok title =>
    Except.ok (rewriteLinks (normalizeBasepath basepath)
      (substituteTemplate template title (render markdown)))

/-- The file writes performed by one `generate_page` call: the single pair
`(output_path, html)` on success, and none when an exception propagates. -/
def generate_page_writes (render : List Char → List Char)
    (markdown template basepath outputPath : List Char) :
    List (List Char × List Char) :=
  match generate_page_core render markdown template basepath with
  | Except.ok html => [(outputPath, html)]
  | Except.error _ => []

/-- Line 50: `output_filename = file.replace(".md", ".html")`. -/
def output_filename (file : List Char) : List Char :=
  repl mdSuffix htmlSuffix file

/-- A filesystem effect of `generate_pages_recursive`: `os.makedirs(d,
exist_ok=True)` (line 48), or writing a generated page (via `generate_page`,
line 53).  Directories are lists of path components relative to the output
root. -/
inductive FsAct where
  | mkdirp : List (List Char) → FsAct
  | write : List (List Char) → List Char → List Char → FsAct
deriving DecidableEq

/-- The inner loop of `generate_pages_recursive` (lines 43-53) over the files
of one directory yielded by `os.walk`.  `dirs` is the directory's path
relative to the content root (the mirrored output subdirectory).  For each
file ending in `.md`: `os.makedirs` the mirrored directory, then generate the
page at the `.md`->`.html` name; any exception aborts the whole walk. -/
def processFiles (render : List Char → List Char) (template basepath : List Char)
    (dirs : List (List Char)) :
    List (List Char × List Char) → Except (List Char) (List FsAct)
  | [] => Except.ok []
  | (name, content) :: rest =>
    if mdSuffix.isSuffixOf name then
      match generate_page_core render content template basepath with
      | Except.error e => Except.error e
      | Except.ok html =>
        match processFiles render template basepath dirs rest with
        | Except.error e => Except.error e
        | Except.ok acts =>
          Except.ok (FsAct.mkdirp dirs :: FsAct.write dirs (output_filename name) html :: acts)
    else
      processFiles render template basepath dirs rest

/-- `generate_pages_recursive` (lines 41-53).  The input directory tree is
presented the way the `os.walk(content_dir)` loop consumes it: a list of
`(relative directory components, files)` pairs, each file a `(name, content)`
pair.  The result is the ordered list of filesystem effects, or the first
propagated exception. -/
def processWalk (render : List Char → List Char) (template basepath : List Char) :
    List (List (List Char) × List (List Char × List Char)) →
      Except (List Char) (List FsAct)
  | [] => Except.ok []
  | (dirs, files) :: rest =>
    match processFiles render template basepath dirs files with
    | Except.error e => Except.error e
    | Except.ok a1 =>
      match processWalk render template basepath rest with
      | Except.error e => Except.error e
      | Except.ok a2 => Except.ok (a1 ++ a2)

/-- `generate_pages_recursive(content_dir, template_path, output_dir, basepath)`
on a directory tree given as its `os.walk` enumeration. -/
def generate_pages_recursive (render : List Char → List Char)
    (template basepath : List Char)
    (walk : List (List (List Char) × List (List Char × List Char))) :
    Except (List Char) (List FsAct) :=
  processWalk render template basepath walk

/-- A single simultaneous left-to-right link-rewriting pass with the four
pattern/replacement pairs of `rewriteLinks` (for the already-normalized base
path): the reference semantics in which text produced by a replacement is
never scanned again. -/
def rewriteOnce (basepath html : List Char) : List Char :=
  simul [(hrefSite, hrefQuote ++ basepath),
         (srcSite, srcQuote ++ basepath),
         (hrefSlash, hrefQuote ++ (rstripSlash basepath ++ ['/'])),
         (srcSlash, srcQuote ++ (rstripSlash basepath ++ ['/']))] html

-- sanity checks against the Python behaviour
example :
    generate_page_core (fun _ => "B".data) ("# T".data)
      ("<title>\x7b\x7b Title \x7d\x7d</title>\x7b\x7b Content \x7d\x7d".data)
      ("/".data)
    = Except.ok ("<title>T</title>B".data) := by decide
example :
    rewriteLinks (normalizeBasepath ("myrepo".data)) ("<a href=\"/about\">".data)
    = "<a href=\"myrepo/about\">".data := by decide
example :
    rewriteLinks (normalizeBasepath ("myrepo".data))
      ("<link href=\"HTMLStaticSite/style.css\">".data)
    = "<link href=\"myrepo//style.css\">".data := by decide

/-! ## Prefix toolkit -/

/-- `pre x y`: `x` is a prefix of `y`. -/
def pre (x y : List Char) : Prop := ∃ t, x ++ t = y

theorem pre_iff_isPrefixOf : ∀ (x y : List Char), pre x y ↔ x.isPrefixOf y = true := by
  intro x
  induction x with
  | nil => intro y; simp [pre, List.isPrefixOf]
  | cons c x ih =>
    intro y
    cases y with
    | nil =>
      simp only [List.isPrefixOf]
      constructor
      · rintro ⟨t, ht⟩; cases ht
      · intro h; cases h
    | cons d y =>
      simp only [List.isPrefixOf, Bool.and_eq_true, beq_iff_eq]
      constructor
      · rintro ⟨t, ht⟩
        have hcd : c = d := by injection ht
        have hxy : x ++ t = y := by injection ht
        exact ⟨hcd, (ih y).mp ⟨t, hxy⟩⟩
      · rintro ⟨hcd, h⟩
        obtain ⟨t, ht⟩ := (ih y).mpr h
        exact ⟨t, by simp only [List.cons_append, hcd, ht]⟩

theorem pre_rfl (x : List Char) : pre x x := ⟨[], List.append_nil x⟩

theorem pre_app (x t : List Char) : pre x (x ++ t) := ⟨t, rfl⟩

theorem pre_nil_elim {x : List Char} (h : pre x []) : x = [] := by
  obtain ⟨t, ht⟩ := h
  exact (List.append_eq_nil.mp ht).1

theorem pre_trans {x y z : List Char} (h1 : pre x y) (h2 : pre y z) : pre x z := by
  obtain ⟨t1, ht1⟩ := h1
  obtain ⟨t2, ht2⟩ := h2
  exact ⟨t1 ++ t2, by rw [← List.append_assoc, ht1, ht2]⟩

theorem pre_len_le {x y : List Char} (h : pre x y) : x.length ≤ y.length := by
  obtain ⟨t, ht⟩ := h
  subst ht
  simp

theorem pre_cons {x y : List Char} (c : Char) (h : pre x y) : pre (c :: x) (c :: y) := by
  obtain ⟨t, ht⟩ := h
  exact ⟨t, congrArg (c :: ·) ht⟩

theorem pre_or_pre : ∀ {x y z : List Char}, pre x z → pre y z → pre x y ∨ pre y x := by
  intro x
  induction x with
  | nil => intro y z _ _; exact Or.inl ⟨y, rfl⟩
  | cons c x ih =>
    intro y z h1 h2
    cases y with
    | nil => exact Or.inr ⟨c :: x, rfl⟩
    | cons d y =>
      obtain ⟨t1, ht1⟩ := h1
      obtain ⟨t2, ht2⟩ := h2
      cases z with
      | nil => cases ht1
      | cons e z =>
        have hce : c = e := by injection ht1
        have hde : d = e := by injection ht2
        have hx : pre x z := ⟨t1, by injection ht1⟩
        have hy : pre y z := ⟨t2, by injection ht2⟩
        have hcd : c = d := hce.trans hde.symm
        subst hcd
        rcases ih hx hy with h | h
        · exact Or.inl (pre_cons c h)
        · exact Or.inr (pre_cons c h)

theorem pre_append_cases {p a b : List Char} (h : pre p (a ++ b)) :
    pre p a ∨ pre a p :=
  pre_or_pre h (pre_app a b)

theorem pre_antisymm {x y : List Char} (h1 : pre x y) (h2 : y.length ≤ x.length) :
    x = y := by
  obtain ⟨t, ht⟩ := h1
  have hlen := congrArg List.length ht
  simp only [List.length_append] at hlen
  have ht0 : t = [] := List.eq_nil_of_length_eq_zero (by omega)
  subst ht0
  simpa using ht

theorem pre_of_append_le {p a b : List Char} (h : pre p (a ++ b))
    (hlen : p.length ≤ a.length) : pre p a := by
  rcases pre_append_cases h with h' | h'
  · exact h'
  · exact (pre_antisymm h' hlen) ▸ pre_rfl a

theorem append_of_pre_ge {p a b : List Char} (h : pre p (a ++ b))
    (hlen : a.length ≤ p.length) : pre a p := by
  rcases pre_append_cases h with h' | h'
  · exact (pre_antisymm h' hlen).symm ▸ pre_rfl p
  · exact h'

theorem pre_head? {x y : List Char} (h : pre x y) (hx : x ≠ []) :
    y.head? = x.head? := by
  obtain ⟨t, ht⟩ := h
  subst ht
  cases x with
  | nil => exact absurd rfl hx
  | cons c x => rfl

theorem drop_append_le : ∀ (n : Nat) (x t : List Char), n ≤ x.length →
    (x ++ t).drop n = x.drop n ++ t := by
  intro n
  induction n with
  | zero => intro x t _; rfl
  | succ n ih =>
    intro x t hn
    cases x with
    | nil => simp at hn
    | cons c x =>
      simp only [List.cons_append, List.drop_succ_cons]
      exact ih x t (by simpa using hn)

theorem pre_drop {x y : List Char} (n : Nat) (h : pre x y) (hn : n ≤ x.length) :
    pre (x.drop n) (y.drop n) := by
  obtain ⟨t, ht⟩ := h
  subst ht
  rw [drop_append_le n x t hn]
  exact pre_app _ _

theorem pre_snoc_cases {x q : List Char} {c : Char} (h : pre x (q ++ [c])) :
    pre x q ∨ x = q ++ [c] := by
  rcases pre_append_cases h with h' | h'
  · exact Or.inl h'
  · obtain ⟨t, ht⟩ := h'
    obtain ⟨u, hu⟩ := h
    rw [← ht, List.append_assoc] at hu
    have htu : t ++ u = [c] := List.append_cancel_left hu
    cases t with
    | nil => exact Or.inl (by rw [← ht]; simpa using pre_rfl q)
    | cons d t' =>
      have hd : d = c := by injection htu
      have ht' : t' ++ u = [] := by injection htu
      have : t' = [] := (List.append_eq_nil.mp ht').1
      subst this
      subst hd
      exact Or.inr (by rw [← ht])

theorem head?_append_ne {a : List Char} (b : List Char) (ha : a ≠ []) :
    (a ++ b).head? = a.head? := by
  cases a with
  | nil => exact absurd rfl ha
  | cons c a => rfl

theorem getLast?_cons_ne {xs : List Char} (c : Char) (h : xs ≠ []) :
    (c :: xs).getLast? = xs.getLast? := by
  cases xs with
  | nil => exact absurd rfl h
  | cons d xs => simp [List.getLast?_cons_cons]

theorem getLast?_append_ne (a : List Char) {b : List Char} (hb : b ≠ []) :
    (a ++ b).getLast? = b.getLast? := by
  induction a with
  | nil => rfl
  | cons c a ih =>
    have hab : a ++ b ≠ [] := by
      intro hc
      exact hb (List.append_eq_nil.mp hc).2
    rw [List.cons_append, getLast?_cons_ne c hab, ih]

theorem getLast?_snoc (q : List Char) (c : Char) : (q ++ [c]).getLast? = some c := by
  rw [getLast?_append_ne q (by simp)]; rfl

theorem getLast?_mem : ∀ {l : List Char} {c : Char}, l.getLast? = some c → c ∈ l := by
  intro l
  induction l with
  | nil => intro c h; cases h
  | cons d l ih =>
    intro c h
    cases hl : l with
    | nil => subst hl; simp at h; simp [h]
    | cons e l' =>
      rw [hl] at ih
      rw [getLast?_cons_ne d (by simp [hl])] at h
      rw [hl] at h
      exact List.mem_cons_of_mem d (ih h)

theorem pre_subset {x y : List Char} (h : pre x y) {a : Char} (ha : a ∈ x) : a ∈ y := by
  obtain ⟨t, ht⟩ := h
  subst ht
  exact List.mem_append_left t ha

theorem head?_drop : ∀ (l : List Char) (n : Nat), (l.drop n).head? = l.get? n := by
  intro l
  induction l with
  | nil => intro n; cases n <;> rfl
  | cons c l ih =>
    intro n
    cases n with
    | zero => rfl
    | succ n => exact ih n

theorem drop_ne_nil {l : List Char} {t : Nat} (h : t < l.length) : l.drop t ≠ [] := by
  intro hc
  have := congrArg List.length hc
  simp [List.length_drop] at this
  omega

theorem getLast?_drop_of_lt {l : List Char} {t : Nat} (h : t < l.length) :
    (l.drop t).getLast? = l.getLast? := by
  conv_rhs => rw [← List.take_append_drop t l]
  rw [getLast?_append_ne _ (drop_ne_nil h)]

/-! ## Occurrence and rstrip lemmas -/

theorem occursIn_false_drop {p : List Char} :
    ∀ {l : List Char}, occursIn p l = false → ∀ t, ¬ pre p (l.drop t) := by
  intro l
  induction l with
  | nil =>
    intro h t hc
    have hp : p = [] := pre_nil_elim (by simpa using hc)
    rw [hp] at h
    simp [occursIn, List.isEmpty] at h
  | cons c rest ih =>
    intro h t hc
    simp only [occursIn, Bool.or_eq_false_iff] at h
    cases t with
    | zero =>
      have := (pre_iff_isPrefixOf p (c :: rest)).mp (by simpa using hc)
      rw [this] at h
      simp at h
    | succ t => exact ih h.2 t (by simpa using hc)

theorem occursIn_true_of_pre_drop {p l : List Char} {t : Nat}
    (h : pre p (l.drop t)) : occursIn p l = true := by
  cases hocc : occursIn p l with
  | true => rfl
  | false => exact absurd h (occursIn_false_drop hocc t)

theorem occursIn_mono_pre {x : List Char} (hx : x ≠ []) :
    ∀ {q l : List Char}, pre q l → occursIn x q = true → occursIn x l = true := by
  intro q
  induction q with
  | nil =>
    intro l _ h
    simp only [occursIn, List.isEmpty_iff] at h
    exact absurd h hx
  | cons c q ih =>
    intro l hql h
    obtain ⟨t, ht⟩ := hql
    cases l with
    | nil => cases ht
    | cons d l =>
      have hcd : c = d := by injection ht
      subst hcd
      have hql' : pre q l := ⟨t, by injection ht⟩
      simp only [occursIn, Bool.or_eq_true] at h ⊢
      rcases h with h | h
      · exact Or.inl ((pre_iff_isPrefixOf _ _).mp
          (pre_trans ((pre_iff_isPrefixOf _ _).mpr h) (pre_cons c hql')))
      · exact Or.inr (ih hql' h)

theorem occursIn_snoc {x q : List Char} {c : Char}
    (h : occursIn x (q ++ [c]) = true) :
    occursIn x q = true ∨ x.getLast? = some c := by
  -- extract an occurrence as a prefix of some suffix
  have hex : ∃ t, t ≤ q.length ∧ pre x ((q ++ [c]).drop t) := by
    induction q with
    | nil =>
      simp only [occursIn, Bool.or_eq_true] at h
      rcases h with h | h
      · exact ⟨0, Nat.le_refl 0, (pre_iff_isPrefixOf _ _).mpr h⟩
      · -- occursIn x [] = true means x = []
        simp only [occursIn, List.isEmpty_iff] at h
        exact ⟨0, Nat.le_refl 0, ⟨_, by rw [h]; rfl⟩⟩
    | cons d q ih =>
      simp only [occursIn, Bool.or_eq_true] at h
      rcases h with h | h
      · exact ⟨0, Nat.zero_le _, (pre_iff_isPrefixOf _ _).mpr h⟩
      · obtain ⟨t, ht1, ht2⟩ := ih h
        exact ⟨t + 1, by simpa using ht1, by simpa using ht2⟩
  obtain ⟨t, ht1, ht2⟩ := hex
  rw [drop_append_le t q [c] ht1] at ht2
  rcases pre_snoc_cases ht2 with h' | h'
  · exact Or.inl (occursIn_true_of_pre_drop h')
  · right
    rw [h', getLast?_snoc]

theorem rstripSlash_pre : ∀ l : List Char, pre (rstripSlash l) l := by
  intro l
  induction l with
  | nil => exact pre_rfl []
  | cons c rest ih =>
    simp only [rstripSlash]
    cases hr : rstripSlash rest with
    | nil =>
      by_cases hc : c = '/'
      · simp only [hc, if_pos]
        exact ⟨'/' :: rest, rfl⟩
      · simp only [hc, if_neg, not_false_iff]
        exact ⟨rest, rfl⟩
    | cons d r =>
      rw [hr] at ih
      exact pre_cons c ih

theorem rstripSlash_head {l : List Char} (hne : l ≠ []) (hh : l.head? ≠ some '/') :
    rstripSlash l ≠ [] ∧ (rstripSlash l).head? = l.head? := by
  cases l with
  | nil => exact absurd rfl hne
  | cons c rest =>
    have hc : c ≠ '/' := by
      intro h
      exact hh (by rw [h]; rfl)
    simp only [rstripSlash]
    cases hr : rstripSlash rest with
    | nil => simp [hc]
    | cons d r => simp

/-! ## Replacement lemmas -/

/-- If the pattern never matches at a position inside `a`, replacement passes
through `a` untouched. -/
theorem repl_append_no_match (p r : List Char) :
    ∀ (a b : List Char), (∀ i, i < a.length → ¬ pre p ((a ++ b).drop i)) →
      repl p r (a ++ b) = a ++ repl p r b := by
  intro a
  induction a with
  | nil => intro b _; rfl
  | cons c a ih =>
    intro b h
    rw [List.cons_append, repl_cons]
    have h0 : ¬ p.isPrefixOf (c :: (a ++ b)) = true := by
      intro hc
      exact h 0 (by simp) ((pre_iff_isPrefixOf _ _).mpr hc)
    rw [if_neg h0, List.cons_append]
    exact congrArg (c :: ·) (ih b (fun i hi hc => h (i + 1) (by simpa using hi) hc))

/-- If no pattern of `L` matches at a position inside `a`, the simultaneous
pass goes through `a` untouched. -/
theorem simul_append_no_match (L : List (List Char × List Char)) :
    ∀ (a b : List Char),
      (∀ i, i < a.length → ∀ pr ∈ L, ¬ pre pr.1 ((a ++ b).drop i)) →
      simul L (a ++ b) = a ++ simul L b := by
  intro a
  induction a with
  | nil => intro b _; rfl
  | cons c a ih =>
    intro b h
    rw [List.cons_append, simul_cons]
    have h0 : L.find? (fun pr => pr.1.isPrefixOf (c :: (a ++ b))) = none := by
      rw [List.find?_eq_none]
      intro pr hpr hc
      exact h 0 (by simp) pr hpr ((pre_iff_isPrefixOf _ _).mpr (by simpa using hc))
    rw [h0]
    dsimp only
    rw [List.cons_append]
    exact congrArg (c :: ·) (ih b (fun i hi pr hpr hc => h (i + 1) (by simpa using hi) pr hpr hc))

theorem find?_append_some {f : List Char × List Char → Bool}
    {l₁ : List (List Char × List Char)} (l₂ : List (List Char × List Char))
    {a : List Char × List Char} (h : l₁.find? f = some a) :
    (l₁ ++ l₂).find? f = some a := by
  induction l₁ with
  | nil => cases h
  | cons x l ih =>
    cases hx : f x with
    | true =>
      rw [List.find?_cons_of_pos _ hx] at h
      rw [List.cons_append, List.find?_cons_of_pos _ hx]
      exact h
    | false =>
      rw [List.find?_cons_of_neg _ (by simp [hx])] at h
      rw [List.cons_append, List.find?_cons_of_neg _ (by simp [hx])]
      exact ih h

theorem find?_append_none {f : List Char × List Char → Bool}
    {l₁ : List (List Char × List Char)} (l₂ : List (List Char × List Char))
    (h : l₁.find? f = none) :
    (l₁ ++ l₂).find? f = l₂.find? f := by
  induction l₁ with
  | nil => rfl
  | cons x l ih =>
    cases hx : f x with
    | true => rw [List.find?_cons_of_pos _ hx] at h; cases h
    | false =>
      rw [List.find?_cons_of_neg _ (by simp [hx])] at h
      rw [List.cons_append, List.find?_cons_of_neg _ (by simp [hx])]
      exact ih h

/-- First-match decomposition of a simultaneous pass: either nothing matches
anywhere (and the pass is the identity), or the input splits at the leftmost
match. -/
theorem simul_decomp (L : List (List Char × List Char))
    (hL : ∀ pr ∈ L, pr.1 ≠ []) :
    ∀ s : List Char,
      simul L s = s ∨
      ∃ (u : List Char) (pr : List Char × List Char) (s' : List Char),
        pr ∈ L ∧ s = u ++ pr.1 ++ s' ∧ simul L s = u ++ pr.2 ++ simul L s' := by
  intro s
  induction s with
  | nil => left; rfl
  | cons c rest ih =>
    cases hf : L.find? (fun pr => pr.1.isPrefixOf (c :: rest)) with
    | some pr =>
      right
      have hmem := List.mem_of_find?_eq_some hf
      have hpre : pre pr.1 (c :: rest) :=
        (pre_iff_isPrefixOf _ _).mpr (by simpa using List.find?_some hf)
      obtain ⟨s', hs'⟩ := hpre
      have hp1 : pr.1 ≠ [] := hL pr hmem
      refine ⟨[], pr, s', hmem, by simpa using hs'.symm, ?_⟩
      rw [simul_cons, hf]
      dsimp only
      have hdrop : List.drop (pr.1.length - 1) rest = s' := by
        cases hp : pr.1 with
        | nil => exact absurd hp hp1
        | cons d q =>
          rw [hp] at hs'
          have hd : d = c := by injection hs'
          have hq : q ++ s' = rest := by injection hs'
          simp only [List.length_cons, Nat.add_sub_cancel]
          rw [← hq, List.drop_left]
      rw [hdrop]
      simp
    | none =>
      rw [simul_cons, hf]
      dsimp only
      rcases ih with h | ⟨u, pr, s', hmem, hs, hsim⟩
      · left; rw [h]
      · right
        exact ⟨c :: u, pr, s', hmem, by simp [hs], by simp [hsim]⟩

/-- If the new pattern `p` does not match at the head of `c :: rest`, it still
does not match there after the earlier passes rewrote `rest`, because no
proper suffix of `p` can continue into the replacement text that any earlier
pass may have introduced. -/
theorem not_pre_simul {L : List (List Char × List Char)} {p : List Char}
    {c : Char} {rest : List Char}
    (hL : ∀ pr ∈ L, pr.1 ≠ [] ∧ pr.2 ≠ [])
    (hHead : ∀ pr ∈ L, ∀ i, i < p.length → 0 < i → p.get? i ≠ pr.2.head?)
    (hnp : ¬ pre p (c :: rest)) :
    ¬ pre p (c :: simul L rest) := by
  intro hcon
  rcases hp : p with _ | ⟨d, p'⟩
  · exact hnp (by rw [hp]; exact ⟨c :: rest, rfl⟩)
  · subst hp
    have hdc : d = c := by
      obtain ⟨t, ht⟩ := hcon
      injection ht
    subst hdc
    have hnp' : ¬ pre p' rest := by
      rintro ⟨t, ht⟩
      exact hnp ⟨t, by rw [List.cons_append, ht]⟩
    have hcon' : pre p' (simul L rest) := by
      obtain ⟨t, ht⟩ := hcon
      exact ⟨t, by injection ht⟩
    rcases simul_decomp L (fun pr hpr => (hL pr hpr).1) rest with heq | ⟨u, pr, s', hmem, hs, hsim⟩
    · rw [heq] at hcon'
      exact hnp' hcon'
    · rw [hsim, List.append_assoc] at hcon'
      rcases le_or_lt p'.length u.length with hle | hlt
      · have hpu : pre p' u := pre_of_append_le hcon' hle
        exact hnp' (pre_trans hpu ⟨pr.1 ++ s', by rw [hs, List.append_assoc]⟩)
      · have hv : pre (p'.drop u.length) (pr.2 ++ simul L s') := by
          have h1 := pre_drop u.length hcon' (Nat.le_of_lt hlt)
          rwa [List.drop_left] at h1
        have hvne : p'.drop u.length ≠ [] := by
          intro hcnil
          have := congrArg List.length hcnil
          simp only [List.length_drop, List.length_nil] at this
          omega
        have hhead1 : (p'.drop u.length).head? = pr.2.head? := by
          rw [← pre_head? hv hvne, head?_append_ne _ (hL pr hmem).2]
        have hget : (d :: p').get? (u.length + 1) = pr.2.head? := by
          rw [List.get?_cons_succ, ← head?_drop, hhead1]
        exact hHead pr hmem (u.length + 1)
          (by simp only [List.length_cons]; omega) (Nat.succ_pos _) hget

/-- Replacement with a pattern that does not occur is the identity. -/
theorem repl_no_occ (p r : List Char) :
    ∀ (n : Nat) (s : List Char), s.length ≤ n → occursIn p s = false →
      repl p r s = s := by
  intro n
  induction n with
  | zero =>
    intro s hn _
    have : s = [] := List.eq_nil_of_length_eq_zero (Nat.le_zero.mp hn)
    subst this; rfl
  | succ n ih =>
    intro s hn hocc
    cases s with
    | nil => rfl
    | cons c rest =>
      simp only [occursIn, Bool.or_eq_false_iff] at hocc
      rw [repl_cons, if_neg (by simp [hocc.1])]
      exact congrArg (c :: ·) (ih rest (by simpa using hn) hocc.2)

/-- Replacing a nonempty pattern by itself is the identity. -/
theorem repl_self (p : List Char) (hpne : p ≠ []) :
    ∀ (n : Nat) (s : List Char), s.length ≤ n → repl p p s = s := by
  intro n
  induction n with
  | zero =>
    intro s hn
    have : s = [] := List.eq_nil_of_length_eq_zero (Nat.le_zero.mp hn)
    subst this; rfl
  | succ n ih =>
    intro s hn
    cases s with
    | nil => rfl
    | cons c rest =>
      rw [repl_cons]
      cases hpc : p.isPrefixOf (c :: rest) with
      | true =>
        simp only [if_pos]
        have hpre : pre p (c :: rest) := (pre_iff_isPrefixOf _ _).mpr hpc
        obtain ⟨t, ht⟩ := hpre
        obtain ⟨d, p', hp⟩ : ∃ d p', p = d :: p' := by
          cases p with
          | nil => exact absurd rfl hpne
          | cons d p' => exact ⟨d, p', rfl⟩
        subst hp
        have hd : d = c := by injection ht
        have hq : p' ++ t = rest := by injection ht
        have hdrop : List.drop ((d :: p').length - 1) rest = t := by
          simp only [List.length_cons, Nat.add_sub_cancel]
          rw [← hq, List.drop_left]
        rw [hdrop, ih t (by rw [← hq] at hn; simp at hn; omega)]
        rw [← ht]
      | false =>
        simp only [Bool.false_eq_true, if_neg, not_false_iff]
        exact congrArg (c :: ·) (ih rest (by simpa using hn))

/-- Adding one more pass after a simultaneous pass: provided the new pattern
`p` never matches inside or across the replacement text of the earlier
passes (`hRep`, `hHead`), and the earlier patterns never match strictly
inside a `p`-match (`hPat`), running `repl p r` after `simul L` equals the
single simultaneous pass that tries `p` last. -/
theorem repl_simul_snoc (L : List (List Char × List Char)) (p r : List Char)
    (hpne : p ≠ [])
    (hL : ∀ pr ∈ L, pr.1 ≠ [] ∧ pr.2 ≠ [])
    (hRep : ∀ pr ∈ L, ∀ i, i < pr.2.length →
      ¬ pre p (pr.2.drop i) ∧ ¬ pre (pr.2.drop i) p)
    (hPat : ∀ pr ∈ L, ∀ i, i < p.length → 0 < i →
      ¬ pre pr.1 (p.drop i) ∧ ¬ pre (p.drop i) pr.1)
    (hHead : ∀ pr ∈ L, ∀ i, i < p.length → 0 < i → p.get? i ≠ pr.2.head?) :
    ∀ (n : Nat) (s : List Char), s.length ≤ n →
      repl p r (simul L s) = simul (L ++ [(p, r)]) s := by
  intro n
  induction n with
  | zero =>
    intro s hn
    have : s = [] := List.eq_nil_of_length_eq_zero (Nat.le_zero.mp hn)
    subst this; rfl
  | succ n ih =>
    intro s hn
    cases s with
    | nil => rfl
    | cons c rest =>
      have hrn : rest.length ≤ n := by simpa using hn
      cases hf : L.find? (fun pr => pr.1.isPrefixOf (c :: rest)) with
      | some pr =>
        have hmem := List.mem_of_find?_eq_some hf
        have hlen : (List.drop (pr.1.length - 1) rest).length ≤ rest.length := by
          simp [List.length_drop]
        have hstep2 : repl p r (pr.2 ++ simul L (List.drop (pr.1.length - 1) rest))
            = pr.2 ++ repl p r (simul L (List.drop (pr.1.length - 1) rest)) := by
          apply repl_append_no_match
          intro i hi hc
          rw [drop_append_le i pr.2 _ (Nat.le_of_lt hi)] at hc
          rcases pre_append_cases hc with h' | h'
          · exact (hRep pr hmem i hi).1 h'
          · exact (hRep pr hmem i hi).2 h'
        rw [simul_cons, hf]
        dsimp only
        rw [hstep2, ih _ (le_trans hlen hrn)]
        rw [simul_cons, find?_append_some _ hf]
      | none =>
        have hstep1 : simul L (c :: rest) = c :: simul L rest := by
          rw [simul_cons, hf]
        cases hpc : p.isPrefixOf (c :: rest) with
        | true =>
          have hpre : pre p (c :: rest) := (pre_iff_isPrefixOf _ _).mpr hpc
          obtain ⟨d, p', hp⟩ : ∃ d p', p = d :: p' := by
            cases p with
            | nil => exact absurd rfl hpne
            | cons d p' => exact ⟨d, p', rfl⟩
          subst hp
          obtain ⟨s', ht⟩ := hpre
          have hd : d = c := by injection ht
          have hq : p' ++ s' = rest := by injection ht
          have hlenp' : s'.length ≤ rest.length := by rw [← hq]; simp
          have hsimrest : simul L rest = p' ++ simul L s' := by
            rw [← hq]
            apply simul_append_no_match
            intro i hi pr hpr hc
            rw [drop_append_le i p' _ (Nat.le_of_lt hi)] at hc
            have hi' : i + 1 < (d :: p').length := by
              simp only [List.length_cons]; omega
            have hdropeq : (d :: p').drop (i + 1) = p'.drop i := rfl
            rcases pre_append_cases hc with h' | h'
            · exact (hPat pr hpr (i + 1) hi' (Nat.succ_pos _)).1 (hdropeq ▸ h')
            · exact (hPat pr hpr (i + 1) hi' (Nat.succ_pos _)).2 (hdropeq ▸ h')
          rw [hstep1, hsimrest]
          have hcdform : (c : Char) :: (p' ++ simul L s') = (d :: p') ++ simul L s' := by
            rw [hd, List.cons_append]
          rw [repl_cons]
          have hmatch : (d :: p').isPrefixOf ((c : Char) :: (p' ++ simul L s')) = true := by
            apply (pre_iff_isPrefixOf _ _).mp
            rw [hcdform]
            exact pre_app _ _
          rw [if_pos hmatch]
          have hdrop1 : List.drop ((d :: p').length - 1) (p' ++ simul L s')
              = simul L s' := by
            simp only [List.length_cons, Nat.add_sub_cancel]
            rw [List.drop_left]
          rw [hdrop1, ih s' (le_trans hlenp' hrn)]
          rw [simul_cons, find?_append_none _ hf]
          have hfind1 : List.find? (fun pr => pr.1.isPrefixOf (c :: rest)) [(d :: p', r)]
              = some (d :: p', r) := by
            simp [List.find?, hpc]
          rw [hfind1]
          dsimp only
          simp only [List.length_cons, Nat.add_sub_cancel]
          rw [← hq, List.drop_left]
        | false =>
          have hnp : ¬ pre p (c :: rest) := by
            intro hcc
            have := (pre_iff_isPrefixOf _ _).mp hcc
            rw [hpc] at this
            cases this
          have hnohead : ¬ pre p (c :: simul L rest) := not_pre_simul hL hHead hnp
          rw [hstep1, repl_cons,
            if_neg (fun hcc => hnohead ((pre_iff_isPrefixOf _ _).mpr hcc))]
          rw [ih rest hrn]
          rw [simul_cons, find?_append_none _ hf,
            List.find?_cons_of_neg _ (by simp [hpc])]
          rfl

instance preDec (x y : List Char) : Decidable (pre x y) :=
  decidable_of_iff (x.isPrefixOf y = true) (pre_iff_isPrefixOf x y).symm

theorem ne_pre_of_head {x y : List Char} (hx : x ≠ []) (h : x.head? ≠ y.head?) :
    ¬ pre x y := by
  intro hc
  exact h (pre_head? hc hx).symm

/-- The pattern `plit ++ ptail` neither matches inside nor spanning out of the
replacement string `rlit ++ bp`, given: the heads rule out a match starting
inside `rlit` (`h6`-`h8`), `plit` does not occur in `bp` (`hnocc`), and every
nonempty prefix of the pattern ending in `'/'` is the whole pattern (`h9`,
with `bp` ending in `'/'`). -/
theorem hRep_master (rlit bp plit ptail : List Char)
    (hbplast : bp.getLast? = some '/')
    (hplit : plit ≠ [])
    (hnocc : occursIn plit bp = false)
    (h6 : ∀ i, i < rlit.length → 0 < i →
      ((rlit.drop i).head? ≠ (plit ++ ptail).head?))
    (h7 : ¬ pre (plit ++ ptail) (rlit ++ bp))
    (h8 : ¬ pre (rlit ++ bp) (plit ++ ptail))
    (h9 : ∀ x, x ≠ [] → x.getLast? = some '/' → pre x (plit ++ ptail) →
      x = plit ++ ptail) :
    ∀ i, i < (rlit ++ bp).length →
      ¬ pre (plit ++ ptail) ((rlit ++ bp).drop i) ∧
      ¬ pre ((rlit ++ bp).drop i) (plit ++ ptail) := by
  intro i hi
  rcases Nat.lt_or_ge i rlit.length with hlt | hge
  · rcases Nat.eq_zero_or_pos i with h0 | hpos
    · subst h0
      exact ⟨h7, h8⟩
    · have hdrop : (rlit ++ bp).drop i = rlit.drop i ++ bp :=
        drop_append_le i rlit bp (Nat.le_of_lt hlt)
      have hdne : rlit.drop i ≠ [] := drop_ne_nil hlt
      have hhead : (rlit.drop i ++ bp).head? = (rlit.drop i).head? :=
        head?_append_ne bp hdne
      have hpne : plit ++ ptail ≠ [] := by
        intro h
        exact hplit (List.append_eq_nil.mp h).1
      constructor
      · intro hc
        rw [hdrop] at hc
        have hh := pre_head? hc hpne
        rw [hhead] at hh
        exact h6 i hlt hpos hh
      · intro hc
        rw [hdrop] at hc
        have hne2 : rlit.drop i ++ bp ≠ [] := by
          intro h
          exact hdne (List.append_eq_nil.mp h).1
        have hh := pre_head? hc hne2
        rw [hhead] at hh
        exact h6 i hlt hpos hh.symm
  · have hdrop : (rlit ++ bp).drop i = bp.drop (i - rlit.length) := by
      rw [List.drop_append_eq_append_drop, List.drop_eq_nil_of_le hge, List.nil_append]
    have htlt : i - rlit.length < bp.length := by
      simp only [List.length_append] at hi
      omega
    have hsufne : bp.drop (i - rlit.length) ≠ [] := drop_ne_nil htlt
    have hsuflast : (bp.drop (i - rlit.length)).getLast? = some '/' := by
      rw [getLast?_drop_of_lt htlt, hbplast]
    constructor
    · intro hc
      rw [hdrop] at hc
      have hplitdrop : pre plit (bp.drop (i - rlit.length)) :=
        pre_trans (pre_app plit ptail) hc
      rw [occursIn_true_of_pre_drop hplitdrop] at hnocc
      cases hnocc
    · intro hc
      rw [hdrop] at hc
      have heq := h9 _ hsufne hsuflast hc
      have hplitdrop : pre plit (bp.drop (i - rlit.length)) := by
        rw [heq]
        exact pre_app _ _
      rw [occursIn_true_of_pre_drop hplitdrop] at hnocc
      cases hnocc

/-- Any nonempty prefix of `plit ++ ['/']` ending in `'/'` is the whole
pattern, when `plit` itself contains no `'/'`. -/
theorem h9_slash {plit : List Char} (hnoslash : '/' ∉ plit) :
    ∀ x, x ≠ [] → x.getLast? = some '/' → pre x (plit ++ ['/']) →
      x = plit ++ ['/'] := by
  intro x hx hlast hp
  rcases pre_snoc_cases hp with h' | h'
  · exact absurd (pre_subset h' (getLast?_mem hlast)) hnoslash
  · exact h'

/-- Vacuous variant of `h9_slash` for a pattern without any `'/'`. -/
theorem h9_noslash {p : List Char} (hnoslash : '/' ∉ p) :
    ∀ x, x ≠ [] → x.getLast? = some '/' → pre x p → x = p := by
  intro x _ hlast hp
  exact absurd (pre_subset hp (getLast?_mem hlast)) hnoslash

/-- Case-B helper: `rlit ++ ['/']` is not a prefix of `rlit ++ bp` when `bp`
does not start with `'/'`, and conversely. -/
theorem caseB_h7 {rlit bp : List Char} (hbphead : bp.head? ≠ some '/') :
    ¬ pre (rlit ++ ['/']) (rlit ++ bp) := by
  intro hc
  have := pre_drop rlit.length hc (by simp)
  rw [List.drop_left, List.drop_left] at this
  obtain ⟨t, ht⟩ := this
  cases bp with
  | nil => cases ht
  | cons c bp' =>
    have : '/' = c := by injection ht
    exact hbphead (by rw [← this]; rfl)

theorem caseB_h8 {rlit bp : List Char} (hbpne : bp ≠ [])
    (hbphead : bp.head? ≠ some '/') :
    ¬ pre (rlit ++ bp) (rlit ++ ['/']) := by
  intro hc
  have h1 := pre_drop rlit.length hc (by simp)
  rw [List.drop_left, List.drop_left] at h1
  have hlen : 1 ≤ bp.length := by
    cases bp with
    | nil => exact absurd rfl hbpne
    | cons c bp' => simp
  have : bp = ['/'] := pre_antisymm h1 (by simpa using hlen)
  exact hbphead (by rw [this]; rfl)

/-- `srcSite` never matches inside or spanning the replacement
`href="{bp}`. -/
theorem hRep_r1_p2 (bp : List Char) (hbplast : bp.getLast? = some '/')
    (hnos : occursIn srcQuote bp = false) :
    ∀ i, i < (hrefQuote ++ bp).length →
      ¬ pre srcSite ((hrefQuote ++ bp).drop i) ∧
      ¬ pre ((hrefQuote ++ bp).drop i) srcSite := by
  exact hRep_master hrefQuote bp srcQuote siteTail hbplast (by decide) hnos
    (by decide)
    (ne_pre_of_head (by decide)
      (show (some 's' : Option Char) ≠ some 'h' by decide))
    (ne_pre_of_head (by simp [hrefQuote])
      (show (some 'h' : Option Char) ≠ some 's' by decide))
    (h9_noslash (by decide))

/-- `hrefSlash` never matches inside or spanning the replacement
`href="{bp}`. -/
theorem hRep_r1_p3 (bp : List Char) (hbpne : bp ≠ [])
    (hbplast : bp.getLast? = some '/') (hbphead : bp.head? ≠ some '/')
    (hnoh : occursIn hrefQuote bp = false) :
    ∀ i, i < (hrefQuote ++ bp).length →
      ¬ pre hrefSlash ((hrefQuote ++ bp).drop i) ∧
      ¬ pre ((hrefQuote ++ bp).drop i) hrefSlash :=
  hRep_master hrefQuote bp hrefQuote ['/'] hbplast (by decide) hnoh
    (by decide)
    (caseB_h7 hbphead)
    (caseB_h8 hbpne hbphead)
    (h9_slash (by decide))

/-- `srcSlash` never matches inside or spanning the replacement
`href="{bp}`. -/
theorem hRep_r1_p4 (bp : List Char) (hbplast : bp.getLast? = some '/')
    (hnos : occursIn srcQuote bp = false) :
    ∀ i, i < (hrefQuote ++ bp).length →
      ¬ pre srcSlash ((hrefQuote ++ bp).drop i) ∧
      ¬ pre ((hrefQuote ++ bp).drop i) srcSlash :=
  hRep_master hrefQuote bp srcQuote ['/'] hbplast (by decide) hnos
    (by decide)
    (ne_pre_of_head (by decide)
      (show (some 's' : Option Char) ≠ some 'h' by decide))
    (ne_pre_of_head (by simp [hrefQuote])
      (show (some 'h' : Option Char) ≠ some 's' by decide))
    (h9_slash (by decide))

/-- `hrefSlash` never matches inside or spanning the replacement
`src="{bp}`. -/
theorem hRep_r2_p3 (bp : List Char) (hbplast : bp.getLast? = some '/')
    (hnoh : occursIn hrefQuote bp = false) :
    ∀ i, i < (srcQuote ++ bp).length →
      ¬ pre hrefSlash ((srcQuote ++ bp).drop i) ∧
      ¬ pre ((srcQuote ++ bp).drop i) hrefSlash :=
  hRep_master srcQuote bp hrefQuote ['/'] hbplast (by decide) hnoh
    (by decide)
    (ne_pre_of_head (by decide)
      (show (some 'h' : Option Char) ≠ some 's' by decide))
    (ne_pre_of_head (by simp [srcQuote])
      (show (some 's' : Option Char) ≠ some 'h' by decide))
    (h9_slash (by decide))

/-- `srcSlash` never matches inside or spanning the replacement
`src="{bp}`. -/
theorem hRep_r2_p4 (bp : List Char) (hbpne : bp ≠ [])
    (hbplast : bp.getLast? = some '/') (hbphead : bp.head? ≠ some '/')
    (hnos : occursIn srcQuote bp = false) :
    ∀ i, i < (srcQuote ++ bp).length →
      ¬ pre srcSlash ((srcQuote ++ bp).drop i) ∧
      ¬ pre ((srcQuote ++ bp).drop i) srcSlash :=
  hRep_master srcQuote bp srcQuote ['/'] hbplast (by decide) hnos
    (by decide)
    (caseB_h7 hbphead)
    (caseB_h8 hbpne hbphead)
    (h9_slash (by decide))

/-- `srcSlash` never matches inside or spanning the replacement
`href="{bp.rstrip("/")}/`. -/
theorem hRep_r3_p4 (bp : List Char)
    (hnos : occursIn srcQuote bp = false) :
    ∀ i, i < (hrefQuote ++ (rstripSlash bp ++ ['/'])).length →
      ¬ pre srcSlash ((hrefQuote ++ (rstripSlash bp ++ ['/'])).drop i) ∧
      ¬ pre ((hrefQuote ++ (rstripSlash bp ++ ['/'])).drop i) srcSlash := by
  have hnos' : occursIn srcQuote (rstripSlash bp ++ ['/']) = false := by
    cases hocc : occursIn srcQuote (rstripSlash bp ++ ['/']) with
    | false => rfl
    | true =>
      rcases occursIn_snoc hocc with h | h
      · have := occursIn_mono_pre (x := srcQuote) (by decide) (rstripSlash_pre bp) h
        rw [this] at hnos
        cases hnos
      · cases h
  exact hRep_master hrefQuote (rstripSlash bp ++ ['/']) srcQuote ['/']
    (getLast?_snoc _ _) (by decide) hnos'
    (by decide)
    (ne_pre_of_head (by decide)
      (show (some 's' : Option Char) ≠ some 'h' by decide))
    (ne_pre_of_head (by simp [hrefQuote])
      (show (some 'h' : Option Char) ≠ some 's' by decide))
    (h9_slash (by decide))

/-- The four chained replacements of `rewriteLinks` equal the single
simultaneous pass `rewriteOnce`, provided the normalized base path does not
start with `'/'` and contains neither `href="` nor `src="`. -/
theorem rewriteLinks_eq_rewriteOnce (bp : List Char)
    (hbpne : bp ≠ [])
    (hbplast : bp.getLast? = some '/')
    (hbphead : bp.head? ≠ some '/')
    (hnoh : occursIn hrefQuote bp = false)
    (hnos : occursIn srcQuote bp = false) :
    ∀ s : List Char, rewriteLinks bp s = rewriteOnce bp s := by
  intro s
  have hr1ne : hrefQuote ++ bp ≠ [] := by simp [hrefQuote]
  have hr2ne : srcQuote ++ bp ≠ [] := by simp [srcQuote]
  have hr3ne : hrefQuote ++ (rstripSlash bp ++ ['/']) ≠ [] := by simp [hrefQuote]
  have e1 : repl hrefSite (hrefQuote ++ bp) s
      = simul [(hrefSite, hrefQuote ++ bp)] s :=
    repl_eq_simul _ _ s.length s (le_refl _)
  have e2 : repl srcSite (srcQuote ++ bp)
        (simul [(hrefSite, hrefQuote ++ bp)] s)
      = simul [(hrefSite, hrefQuote ++ bp), (srcSite, srcQuote ++ bp)] s := by
    refine repl_simul_snoc _ srcSite (srcQuote ++ bp) (by decide) ?_ ?_ ?_ ?_ s.length s (le_refl _)
    · intro pr hpr
      simp only [List.mem_cons, List.not_mem_nil, or_false] at hpr
      subst hpr
      exact ⟨(by decide : hrefSite ≠ []), hr1ne⟩
    · intro pr hpr
      simp only [List.mem_cons, List.not_mem_nil, or_false] at hpr
      subst hpr
      exact hRep_r1_p2 bp hbplast hnos
    · intro pr hpr
      simp only [List.mem_cons, List.not_mem_nil, or_false] at hpr
      subst hpr
      exact (by decide :
        ∀ i, i < srcSite.length → 0 < i →
          ¬ pre hrefSite (srcSite.drop i) ∧ ¬ pre (srcSite.drop i) hrefSite)
    · intro pr hpr
      simp only [List.mem_cons, List.not_mem_nil, or_false] at hpr
      subst hpr
      exact (by decide :
        ∀ i, i < srcSite.length → 0 < i → srcSite.get? i ≠ some 'h')
  have e3 : repl hrefSlash (hrefQuote ++ (rstripSlash bp ++ ['/']))
        (simul [(hrefSite, hrefQuote ++ bp), (srcSite, srcQuote ++ bp)] s)
      = simul [(hrefSite, hrefQuote ++ bp), (srcSite, srcQuote ++ bp),
               (hrefSlash, hrefQuote ++ (rstripSlash bp ++ ['/']))] s := by
    refine repl_simul_snoc _ hrefSlash (hrefQuote ++ (rstripSlash bp ++ ['/']))
      (by decide) ?_ ?_ ?_ ?_ s.length s (le_refl _)
    · intro pr hpr
      simp only [List.mem_cons, List.not_mem_nil, or_false] at hpr
      rcases hpr with hpr | hpr <;> subst hpr
      · exact ⟨(by decide : hrefSite ≠ []), hr1ne⟩
      · exact ⟨(by decide : srcSite ≠ []), hr2ne⟩
    · intro pr hpr
      simp only [List.mem_cons, List.not_mem_nil, or_false] at hpr
      rcases hpr with hpr | hpr <;> subst hpr
      · exact hRep_r1_p3 bp hbpne hbplast hbphead hnoh
      · exact hRep_r2_p3 bp hbplast hnoh
    · intro pr hpr
      simp only [List.mem_cons, List.not_mem_nil, or_false] at hpr
      rcases hpr with hpr | hpr <;> subst hpr
      · exact (by decide :
          ∀ i, i < hrefSlash.length → 0 < i →
            ¬ pre hrefSite (hrefSlash.drop i) ∧ ¬ pre (hrefSlash.drop i) hrefSite)
      · exact (by decide :
          ∀ i, i < hrefSlash.length → 0 < i →
            ¬ pre srcSite (hrefSlash.drop i) ∧ ¬ pre (hrefSlash.drop i) srcSite)
    · intro pr hpr
      simp only [List.mem_cons, List.not_mem_nil, or_false] at hpr
      rcases hpr with hpr | hpr <;> subst hpr
      · exact (by decide :
          ∀ i, i < hrefSlash.length → 0 < i → hrefSlash.get? i ≠ some 'h')
      · exact (by decide :
          ∀ i, i < hrefSlash.length → 0 < i → hrefSlash.get? i ≠ some 's')
  have e4 : repl srcSlash (srcQuote ++ (rstripSlash bp ++ ['/']))
        (simul [(hrefSite, hrefQuote ++ bp), (srcSite, srcQuote ++ bp),
                (hrefSlash, hrefQuote ++ (rstripSlash bp ++ ['/']))] s)
      = simul [(hrefSite, hrefQuote ++ bp), (srcSite, srcQuote ++ bp),
               (hrefSlash, hrefQuote ++ (rstripSlash bp ++ ['/'])),
               (srcSlash, srcQuote ++ (rstripSlash bp ++ ['/']))] s := by
    refine repl_simul_snoc _ srcSlash (srcQuote ++ (rstripSlash bp ++ ['/']))
      (by decide) ?_ ?_ ?_ ?_ s.length s (le_refl _)
    · intro pr hpr
      simp only [List.mem_cons, List.not_mem_nil, or_false] at hpr
      rcases hpr with hpr | hpr | hpr <;> subst hpr
      · exact ⟨(by decide : hrefSite ≠ []), hr1ne⟩
      · exact ⟨(by decide : srcSite ≠ []), hr2ne⟩
      · exact ⟨(by decide : hrefSlash ≠ []), hr3ne⟩
    · intro pr hpr
      simp only [List.mem_cons, List.not_mem_nil, or_false] at hpr
      rcases hpr with hpr | hpr | hpr <;> subst hpr
      · exact hRep_r1_p4 bp hbplast hnos
      · exact hRep_r2_p4 bp hbpne hbplast hbphead hnos
      · exact hRep_r3_p4 bp hnos
    · intro pr hpr
      simp only [List.mem_cons, List.not_mem_nil, or_false] at hpr
      rcases hpr with hpr | hpr | hpr <;> subst hpr
      · exact (by decide :
          ∀ i, i < srcSlash.length → 0 < i →
            ¬ pre hrefSite (srcSlash.drop i) ∧ ¬ pre (srcSlash.drop i) hrefSite)
      · exact (by decide :
          ∀ i, i < srcSlash.length → 0 < i →
            ¬ pre srcSite (srcSlash.drop i) ∧ ¬ pre (srcSlash.drop i) srcSite)
      · exact (by decide :
          ∀ i, i < srcSlash.length → 0 < i →
            ¬ pre hrefSlash (srcSlash.drop i) ∧ ¬ pre (srcSlash.drop i) hrefSlash)
    · intro pr hpr
      simp only [List.mem_cons, List.not_mem_nil, or_false] at hpr
      rcases hpr with hpr | hpr | hpr <;> subst hpr
      · exact (by decide :
          ∀ i, i < srcSlash.length → 0 < i → srcSlash.get? i ≠ some 'h')
      · exact (by decide :
          ∀ i, i < srcSlash.length → 0 < i → srcSlash.get? i ≠ some 's')
      · exact (by decide :
          ∀ i, i < srcSlash.length → 0 < i → srcSlash.get? i ≠ some 'h')
  show repl srcSlash (srcQuote ++ (rstripSlash bp ++ ['/']))
    (repl hrefSlash (hrefQuote ++ (rstripSlash bp ++ ['/']))
      (repl srcSite (srcQuote ++ bp)
        (repl hrefSite (hrefQuote ++ bp) s))) = rewriteOnce bp s
  rw [e1, e2, e3, e4]
  rfl

/-! ## Split/join characterization of replacement -/

theorem splitOnL_ne_nil (p s : List Char) : splitOnL p s ≠ [] := by
  cases s with
  | nil => simp
  | cons c rest =>
    rw [splitOnL_cons]
    cases hp : p.isPrefixOf (c :: rest) with
    | true => simp
    | false =>
      simp only [Bool.false_eq_true, if_neg, not_false_iff]
      cases splitOnL p rest <;> simp

theorem joinSep_cons_first (sep : List Char) (c : Char) :
    ∀ (l : List Char) (ls : List (List Char)),
      joinSep sep ((c :: l) :: ls) = c :: joinSep sep (l :: ls) := by
  intro l ls
  cases ls with
  | nil => rfl
  | cons y ys => simp [joinSep]

/-- Python's `s.split(p)` followed by `p.join(...)` reconstructs `s`. -/
theorem joinSep_split (p : List Char) (hp : p ≠ []) :
    ∀ (n : Nat) (s : List Char), s.length ≤ n → joinSep p (splitOnL p s) = s := by
  intro n
  induction n with
  | zero =>
    intro s hn
    have : s = [] := List.eq_nil_of_length_eq_zero (Nat.le_zero.mp hn)
    subst this; rfl
  | succ n ih =>
    intro s hn
    cases s with
    | nil => rfl
    | cons c rest =>
      rw [splitOnL_cons]
      cases hpc : p.isPrefixOf (c :: rest) with
      | true =>
        simp only [if_pos]
        have hpre : pre p (c :: rest) := (pre_iff_isPrefixOf _ _).mpr hpc
        obtain ⟨d, p', hpeq⟩ : ∃ d p', p = d :: p' := by
          cases p with
          | nil => exact absurd rfl hp
          | cons d p' => exact ⟨d, p', rfl⟩
        obtain ⟨t, ht⟩ := hpre
        have hq : p' ++ t = rest := by rw [hpeq] at ht; injection ht
        have hdrop : List.drop (p.length - 1) rest = t := by
          rw [hpeq]
          simp only [List.length_cons, Nat.add_sub_cancel]
          rw [← hq, List.drop_left]
        rw [hdrop]
        have htlen : t.length ≤ n := by
          have : rest.length ≤ n := by simpa using hn
          rw [← hq] at this
          simp only [List.length_append] at this
          omega
        cases hsp : splitOnL p t with
        | nil => exact absurd hsp (splitOnL_ne_nil p t)
        | cons l ls =>
          show joinSep p ([] :: l :: ls) = c :: rest
          show [] ++ p ++ joinSep p (l :: ls) = c :: rest
          rw [← hsp, ih t htlen, List.nil_append, ht]
      | false =>
        simp only [Bool.false_eq_true, if_neg, not_false_iff]
        cases hsp : splitOnL p rest with
        | nil => exact absurd hsp (splitOnL_ne_nil p rest)
        | cons l ls =>
          show joinSep p ((c :: l) :: ls) = c :: rest
          rw [joinSep_cons_first, ← hsp, ih rest (by simpa using hn)]

/-- Python's `s.replace(p, r)` substitutes `r` at exactly the separators of
the greedy split: it equals `r.join(s.split(p))`. -/
theorem repl_eq_joinSep_split (p r : List Char) :
    ∀ (n : Nat) (s : List Char), s.length ≤ n →
      repl p r s = joinSep r (splitOnL p s) := by
  intro n
  induction n with
  | zero =>
    intro s hn
    have : s = [] := List.eq_nil_of_length_eq_zero (Nat.le_zero.mp hn)
    subst this; rfl
  | succ n ih =>
    intro s hn
    cases s with
    | nil => rfl
    | cons c rest =>
      rw [splitOnL_cons, repl_cons]
      cases hpc : p.isPrefixOf (c :: rest) with
      | true =>
        simp only [if_pos]
        have htlen : (List.drop (p.length - 1) rest).length ≤ n := by
          have : rest.length ≤ n := by simpa using hn
          simp only [List.length_drop]
          omega
        cases hsp : splitOnL p (List.drop (p.length - 1) rest) with
        | nil => exact absurd hsp (splitOnL_ne_nil p _)
        | cons l ls =>
          show r ++ repl p r (List.drop (p.length - 1) rest)
            = joinSep r ([] :: l :: ls)
          show r ++ repl p r (List.drop (p.length - 1) rest)
            = [] ++ r ++ joinSep r (l :: ls)
          rw [← hsp, ih _ htlen, List.nil_append]
      | false =>
        simp only [Bool.false_eq_true, if_neg, not_false_iff]
        cases hsp : splitOnL p rest with
        | nil => exact absurd hsp (splitOnL_ne_nil p rest)
        | cons l ls =>
          show c :: repl p r rest = joinSep r ((c :: l) :: ls)
          rw [joinSep_cons_first, ← hsp, ih rest (by simpa using hn)]

/-- Replacing an exact pattern occurrence standing alone yields exactly the
replacement. -/
theorem repl_exact (p r : List Char) (hp : p ≠ []) : repl p r p = r := by
  obtain ⟨d, p', hpeq⟩ : ∃ d p', p = d :: p' := by
    cases p with
    | nil => exact absurd rfl hp
    | cons d p' => exact ⟨d, p', rfl⟩
  subst hpeq
  rw [repl_cons, if_pos ((pre_iff_isPrefixOf _ _).mp (pre_rfl _))]
  simp only [List.length_cons, Nat.add_sub_cancel]
  rw [List.drop_length]
  simp

/-- The loop of `extract_title` returns the remainder of the first matching
line, in `List.find?` terms. -/
theorem findTitle_eq_find? : ∀ ls : List (List Char),
    findTitle ls = (ls.find? (fun l => hashSpace.isPrefixOf l)).map (fun l => l.drop 2) := by
  intro ls
  induction ls with
  | nil => rfl
  | cons l rest ih =>
    simp only [findTitle]
    cases hp : hashSpace.isPrefixOf l with
    | true =>
      simp only [if_pos]
      rw [List.find?_cons_of_pos _ hp]
      rfl
    | false =>
      simp only [Bool.false_eq_true, if_neg, not_false_iff]
      rw [List.find?_cons_of_neg _ (by simp [hp])]
      exact ih

/-! ## Walker lemmas -/

/-- What one directory's file loop does on success: every `.md` file produces
its mkdir and its write at the `.md`->`.html` name, and every produced action
arises that way. -/
theorem processFiles_spec (render : List Char → List Char) (template bp : List Char)
    (dirs : List (List Char)) :
    ∀ (files : List (List Char × List Char)) (acts : List FsAct),
      processFiles render template bp dirs files = Except.ok acts →
      (∀ name content, (name, content) ∈ files → mdSuffix.isSuffixOf name = true →
        FsAct.mkdirp dirs ∈ acts ∧
        ∃ html, FsAct.write dirs (output_filename name) html ∈ acts) ∧
      (∀ d n h, FsAct.write d n h ∈ acts →
        d = dirs ∧ ∃ name content, (name, content) ∈ files ∧
          mdSuffix.isSuffixOf name = true ∧ n = output_filename name) ∧
      (∀ d, FsAct.mkdirp d ∈ acts → d = dirs) := by
  intro files
  induction files with
  | nil =>
    intro acts h
    have : acts = [] := by
      simpa [processFiles] using h.symm
    subst this
    refine ⟨?_, ?_, ?_⟩
    · intro name content hmem
      cases hmem
    · intro d n hh hmem
      cases hmem
    · intro d hmem
      cases hmem
  | cons nc rest ih =>
    obtain ⟨name, content⟩ := nc
    intro acts h
    rw [processFiles] at h
    cases hmd : mdSuffix.isSuffixOf name with
    | false =>
      rw [hmd] at h
      simp only [Bool.false_eq_true, if_neg, not_false_iff] at h
      obtain ⟨h1, h2, h3⟩ := ih acts h
      refine ⟨?_, ?_, h3⟩
      · intro name' content' hmem hsuf
        rcases List.mem_cons.mp hmem with heq | hmem'
        · have hn : name' = name := by
            injection heq
          rw [hn, hmd] at hsuf
          cases hsuf
        · exact h1 name' content' hmem' hsuf
      · intro d n hh hmem
        obtain ⟨hd, nm, ct, hmem', hsuf, hn⟩ := h2 d n hh hmem
        exact ⟨hd, nm, ct, List.mem_cons_of_mem _ hmem', hsuf, hn⟩
    | true =>
      rw [hmd] at h
      simp only [if_pos] at h
      cases hg : generate_page_core render content template bp with
      | error e => rw [hg] at h; cases h
      | ok html =>
        rw [hg] at h
        cases hrest : processFiles render template bp dirs rest with
        | error e => rw [hrest] at h; cases h
        | ok acts' =>
          rw [hrest] at h
          have hacts : acts
              = FsAct.mkdirp dirs :: FsAct.write dirs (output_filename name) html :: acts' := by
            have := h
            injection this with hinj
            exact hinj.symm
          subst hacts
          obtain ⟨h1, h2, h3⟩ := ih acts' hrest
          refine ⟨?_, ?_, ?_⟩
          · intro name' content' hmem hsuf
            rcases List.mem_cons.mp hmem with heq | hmem'
            · have hn : name' = name := by injection heq
              subst hn
              exact ⟨List.mem_cons_self _ _,
                html, List.mem_cons_of_mem _ (List.mem_cons_self _ _)⟩
            · obtain ⟨ha, htmlw, hb⟩ := h1 name' content' hmem' hsuf
              exact ⟨List.mem_cons_of_mem _ (List.mem_cons_of_mem _ ha),
                htmlw, List.mem_cons_of_mem _ (List.mem_cons_of_mem _ hb)⟩
          · intro d n hh hmem
            rcases List.mem_cons.mp hmem with heq | hmem'
            · cases heq
            · rcases List.mem_cons.mp hmem' with heq | hmem''
              · have hd : d = dirs ∧ n = output_filename name := by
                  injection heq with e1 e2 e3
                  exact ⟨e1, e2⟩
                exact ⟨hd.1, name, content, List.mem_cons_self _ _, hmd, hd.2⟩
              · obtain ⟨hd, nm, ct, hmem3, hsuf, hn⟩ := h2 d n hh hmem''
                exact ⟨hd, nm, ct, List.mem_cons_of_mem _ hmem3, hsuf, hn⟩
          · intro d hmem
            rcases List.mem_cons.mp hmem with heq | hmem'
            · exact FsAct.mkdirp.inj heq
            · rcases List.mem_cons.mp hmem' with heq | hmem''
              · cases heq
              · exact h3 d hmem''

/-- The actions of a successful recursive walk: each visited `.md` file
produced a mkdir of its mirrored directory and a write at its
`.md`->`.html` name, and every write arises from some visited `.md` file. -/
theorem processWalk_spec (render : List Char → List Char) (template bp : List Char) :
    ∀ (walk : List (List (List Char) × List (List Char × List Char))) (acts : List FsAct),
      processWalk render template bp walk = Except.ok acts →
      (∀ dirs files, (dirs, files) ∈ walk →
        ∀ name content, (name, content) ∈ files → mdSuffix.isSuffixOf name = true →
        FsAct.mkdirp dirs ∈ acts ∧
        ∃ html, FsAct.write dirs (output_filename name) html ∈ acts) ∧
      (∀ d n h, FsAct.write d n h ∈ acts →
        ∃ files name content, (d, files) ∈ walk ∧ (name, content) ∈ files ∧
          mdSuffix.isSuffixOf name = true ∧ n = output_filename name) := by
  intro walk
  induction walk with
  | nil =>
    intro acts h
    have : acts = [] := by
      simpa [processWalk] using h.symm
    subst this
    refine ⟨?_, ?_⟩
    · intro dirs files hmem
      cases hmem
    · intro d n hh hmem
      cases hmem
  | cons df rest ih =>
    obtain ⟨dirs, files⟩ := df
    intro acts h
    rw [processWalk] at h
    cases hf : processFiles render template bp dirs files with
    | error e => rw [hf] at h; cases h
    | ok a1 =>
      rw [hf] at h
      cases hw : processWalk render template bp rest with
      | error e => rw [hw] at h; cases h
      | ok a2 =>
        rw [hw] at h
        have hacts : acts = a1 ++ a2 := by
          injection h with hinj
          exact hinj.symm
        subst hacts
        obtain ⟨f1, f2, _⟩ := processFiles_spec render template bp dirs files a1 hf
        obtain ⟨w1, w2⟩ := ih a2 hw
        refine ⟨?_, ?_⟩
        · intro dirs' files' hmem name content hmemf hsuf
          rcases List.mem_cons.mp hmem with heq | hmem'
          · obtain ⟨e1, e2⟩ : dirs' = dirs ∧ files' = files := by
              injection heq with e1 e2
              exact ⟨e1, e2⟩
            subst e1
            subst e2
            obtain ⟨ha, html, hb⟩ := f1 name content hmemf hsuf
            exact ⟨List.mem_append_left _ ha, html, List.mem_append_left _ hb⟩
          · obtain ⟨ha, html, hb⟩ := w1 dirs' files' hmem' name content hmemf hsuf
            exact ⟨List.mem_append_right _ ha, html, List.mem_append_right _ hb⟩
        · intro d n hh hmem
          rcases List.mem_append.mp hmem with hmem' | hmem'
          · obtain ⟨hd, nm, ct, hmemf, hsuf, hn⟩ := f2 d n hh hmem'
            exact ⟨files, nm, ct, by rw [hd]; exact List.mem_cons_self _ _, hmemf, hsuf, hn⟩
          · obtain ⟨fs, nm, ct, hmemw, hmemf, hsuf, hn⟩ := w2 d n hh hmem'
            exact ⟨fs, nm, ct, List.mem_cons_of_mem _ hmemw, hmemf, hsuf, hn⟩

/-! ## Claim theorems -/

/-- Claim C1, corrected.  With base path `myrepo` (normalized `myrepo/`), the
template fragment `href="HTMLStaticSite/style.css"` is NOT rewritten to
`href="myrepo/style.css"` as the claim states: the marker replacement keeps
the slash that follows the token, so the output contains
`href="myrepo//style.css"` and the claimed fragment nowhere. -/
theorem c1_counterexample :
    occursIn ("href=\"HTMLStaticSite/style.css\"".data)
      ("<a href=\"/about\"><link href=\"HTMLStaticSite/style.css\">".data) = true ∧
    rewriteLinks (normalizeBasepath ("myrepo".data))
      ("<a href=\"/about\"><link href=\"HTMLStaticSite/style.css\">".data)
      = "<a href=\"myrepo/about\"><link href=\"myrepo//style.css\">".data ∧
    occursIn ("href=\"myrepo/style.css\"".data)
      ("<a href=\"myrepo/about\"><link href=\"myrepo//style.css\">".data) = false := by
  decide

/-- Claim C1, amended.  For base path `myrepo`, `generate_page` rewrites
`href="/about"` to `href="myrepo/about"`, and rewrites
`href="HTMLStaticSite/style.css"` to `href="myrepo//style.css"` (the marker
token is replaced by `myrepo/`, and the `/` that followed the token in the
template remains, yielding a double slash). -/
theorem c1_basepath_myrepo :
    generate_page_core (fun _ => "<p>B</p>".data) ("# Home".data)
      ("<title>\x7b\x7b Title \x7d\x7d</title>\x7b\x7b Content \x7d\x7d<a href=\"/about\"><link href=\"HTMLStaticSite/style.css\">".data)
      ("myrepo".data)
    = Except.ok
      ("<title>Home</title><p>B</p><a href=\"myrepo/about\"><link href=\"myrepo//style.css\">".data) := by
  decide

/-- Claim C2, corrected.  With base path `/myrepo` the claim fails: the token
pass rewrites `href="HTMLStaticSite/x"` to `href="/myrepo//x"`, and the later
generic `href="/` pass rewrites that introduced text AGAIN, producing
`href="/myrepo/myrepo//x"`, unlike the single simultaneous pass. -/
theorem c2_counterexample :
    rewriteLinks (normalizeBasepath ("/myrepo".data))
      ("<a href=\"HTMLStaticSite/x\">".data)
      = "<a href=\"/myrepo/myrepo//x\">".data ∧
    rewriteOnce (normalizeBasepath ("/myrepo".data))
      ("<a href=\"HTMLStaticSite/x\">".data)
      = "<a href=\"/myrepo//x\">".data ∧
    ("<a href=\"/myrepo/myrepo//x\">".data : List Char)
      ≠ "<a href=\"/myrepo//x\">".data := by
  decide

/-- Claim C2, amended.  Provided the normalized base path does not start with
`'/'` and contains neither `href="` nor `src="`, the text introduced by the
`HTMLStaticSite` token passes is never rewritten again by the later generic
`href="/` / `src="/` passes: the four chained replacements of `rewriteLinks`
equal the single simultaneous left-to-right pass `rewriteOnce`, so each
original link position is rewritten at most once. -/
theorem c2_no_rerewrite (bp : List Char)
    (hbpne : bp ≠ []) (hbplast : bp.getLast? = some '/')
    (hbphead : bp.head? ≠ some '/')
    (hnoh : occursIn hrefQuote bp = false)
    (hnos : occursIn srcQuote bp = false)
    (s : List Char) :
    rewriteLinks bp s = rewriteOnce bp s :=
  rewriteLinks_eq_rewriteOnce bp hbpne hbplast hbphead hnoh hnos s

theorem c2_witness :
    (("myrepo/".data : List Char) ≠ [] ∧
      ("myrepo/".data : List Char).getLast? = some '/' ∧
      ("myrepo/".data : List Char).head? ≠ some '/' ∧
      occursIn hrefQuote ("myrepo/".data) = false ∧
      occursIn srcQuote ("myrepo/".data) = false) ∧
    rewriteLinks ("myrepo/".data)
        ("<a href=\"/about\"><link href=\"HTMLStaticSite/style.css\">".data)
      = rewriteOnce ("myrepo/".data)
        ("<a href=\"/about\"><link href=\"HTMLStaticSite/style.css\">".data) := by
  refine ⟨⟨by decide, by decide, by decide, by decide, by decide⟩, ?_⟩
  exact c2_no_rerewrite ("myrepo/".data) (by decide) (by decide) (by decide)
    (by decide) (by decide) _

/-- Claim C3, confirmed.  If some line of the document starts with `# `, then
`extract_title` returns the remainder of the first such line (top to bottom)
after the two leading characters, verbatim — in particular without trimming
trailing whitespace. -/
theorem c3_extract_title_first (md line : List Char)
    (h : (splitOnL ['\n'] md).find? (fun l => hashSpace.isPrefixOf l) = some line) :
    extract_title md = Except.ok (line.drop 2) := by
  unfold extract_title
  rw [findTitle_eq_find?, h]
  rfl

theorem c3_witness :
    (splitOnL ['\n'] ("intro\n# My Title \nrest".data)).find?
        (fun l => hashSpace.isPrefixOf l) = some ("# My Title ".data) ∧
    extract_title ("intro\n# My Title \nrest".data)
      = Except.ok ("My Title ".data) := by
  refine ⟨by decide, ?_⟩
  exact c3_extract_title_first ("intro\n# My Title \nrest".data) ("# My Title ".data)
    (by decide)

/-- Claim C4, confirmed.  `extract_title` fails (with the
`No title found in markdown` error) exactly when no line of the document
starts with `# `; `generate_page` propagates that error unchanged and
performs no file write in that case. -/
theorem c4_missing_title (render : List Char → List Char)
    (md template bp outPath : List Char) :
    (extract_title md = Except.error errNoTitle ↔
      ∀ l ∈ splitOnL ['\n'] md, hashSpace.isPrefixOf l = false) ∧
    (∀ e, extract_title md = Except.error e →
      generate_page_core render md template bp = Except.error e ∧
      generate_page_writes render md template bp outPath = []) := by
  constructor
  · unfold extract_title
    rw [findTitle_eq_find?]
    cases hf : (splitOnL ['\n'] md).find? (fun l => hashSpace.isPrefixOf l) with
    | some l =>
      constructor
      · intro hcc
        exact Except.noConfusion hcc
      · intro hall
        have hmem := List.mem_of_find?_eq_some hf
        have hpred : hashSpace.isPrefixOf l = true := by
          simpa using List.find?_some hf
        rw [hall l hmem] at hpred
        cases hpred
    | none =>
      constructor
      · intro _ l hl
        have h0 : ¬ hashSpace.isPrefixOf l = true := by
          simpa using List.find?_eq_none.mp hf l hl
        exact Bool.eq_false_iff.mpr h0
      · intro _
        rfl
  · intro e he
    refine ⟨?_, ?_⟩
    · unfold generate_page_core
      rw [he]
    · unfold generate_page_writes generate_page_core
      rw [he]

theorem c4_witness :
    extract_title ("hello\nworld".data) = Except.error errNoTitle ∧
    generate_page_core (fun _ => []) ("hello\nworld".data) ("t".data) ("/".data)
      = Except.error errNoTitle ∧
    generate_page_writes (fun _ => []) ("hello\nworld".data) ("t".data) ("/".data)
      ("out.html".data) = [] := by
  have h := c4_missing_title (fun _ => []) ("hello\nworld".data) ("t".data)
    ("/".data) ("out.html".data)
  have he : extract_title ("hello\nworld".data) = Except.error errNoTitle :=
    h.1.mpr (by decide)
  exact ⟨he, (h.2 errNoTitle he).1, (h.2 errNoTitle he).2⟩

/-- Claim C5, corrected.  `file.replace(".md", ".html")` replaces EVERY
occurrence of `.md`, not just the trailing extension: for the file name
`a.md.md` (which ends in `.md` and is therefore visited), the computed
output name is `a.html.html`, not `a.md.html`. -/
theorem c5_counterexample :
    mdSuffix.isSuffixOf ("a.md.md".data) = true ∧
    output_filename ("a.md.md".data) = "a.html.html".data ∧
    ("a.html.html".data : List Char) ≠ "a.md.html".data := by
  decide

/-- Claim C5, amended.  The output name is the input name with every
occurrence of `.md` replaced by `.html`; when `.md` occurs only as the
trailing extension (it does not occur in the stem), this equals replacing the
trailing `.md` extension with `.html` and leaving the rest unchanged. -/
theorem c5_trailing_md (stem : List Char) (h : occursIn mdSuffix stem = false) :
    output_filename (stem ++ mdSuffix) = stem ++ htmlSuffix := by
  unfold output_filename
  have hno : ∀ i, i < stem.length → ¬ pre mdSuffix ((stem ++ mdSuffix).drop i) := by
    intro i hi hc
    rw [drop_append_le i stem _ (Nat.le_of_lt hi)] at hc
    rcases pre_append_cases hc with h' | h'
    · exact absurd (occursIn_true_of_pre_drop h') (by simp [h])
    · obtain ⟨t, ht⟩ := h'
      rcases hx : stem.drop i with _ | ⟨a, x1⟩
      · exact drop_ne_nil hi hx
      · rw [hx] at ht hc
        rcases x1 with _ | ⟨b, x2⟩
        · have ha : a = '.' := by injection ht
          subst ha
          exact absurd hc (by decide)
        · rcases x2 with _ | ⟨e, x3⟩
          · injection ht with h1 ht2
            injection ht2 with h2 ht3
            subst h1
            subst h2
            exact absurd hc (by decide)
          · injection ht with h1 ht2
            injection ht2 with h2 ht3
            injection ht3 with h3 ht4
            have hx3 : x3 = [] := (List.append_eq_nil.mp ht4).1
            subst h1
            subst h2
            subst h3
            subst hx3
            have hmd : pre mdSuffix (stem.drop i) := by
              rw [hx]
              exact pre_rfl _
            exact absurd (occursIn_true_of_pre_drop hmd) (by simp [h])
  rw [repl_append_no_match mdSuffix htmlSuffix stem mdSuffix hno]
  rw [repl_exact mdSuffix htmlSuffix (by decide)]

theorem c5_witness :
    occursIn mdSuffix ("index".data) = false ∧
    output_filename ("index".data ++ mdSuffix) = "index".data ++ htmlSuffix := by
  exact ⟨by decide, c5_trailing_md ("index".data) (by decide)⟩

/-- Claim C6, corrected.  For the `.md` file `a.md.md`, the walk writes
`a.html.html`, not the mirrored name `a.md.html`: no file appears at the
mirrored relative path with only the extension changed, and an other `.html`
file is created instead. -/
theorem c6_counterexample :
    generate_pages_recursive (fun _ => []) ("x".data) ("/".data)
        [([], [("a.md.md".data, "# T".data)])]
      = Except.ok [FsAct.mkdirp [],
          FsAct.write [] ("a.html.html".data) ("x".data)] ∧
    ("a.html.html".data : List Char) ≠ "a.md.html".data := by
  decide

/-- Claim C6, amended.  After a successful `generate_pages_recursive`, every
`.md` file at relative directory `dirs` produced a `makedirs` of the mirrored
directory and a write there under the name with every `.md` occurrence
replaced by `.html`; every write arises from such a `.md` file (so non-`.md`
files produce no output). -/
theorem c6_mirrored_outputs (render : List Char → List Char) (template bp : List Char)
    (walk : List (List (List Char) × List (List Char × List Char))) (acts : List FsAct)
    (h : generate_pages_recursive render template bp walk = Except.ok acts) :
    (∀ dirs files, (dirs, files) ∈ walk →
      ∀ name content, (name, content) ∈ files → mdSuffix.isSuffixOf name = true →
      FsAct.mkdirp dirs ∈ acts ∧
      ∃ html, FsAct.write dirs (output_filename name) html ∈ acts) ∧
    (∀ d n h2, FsAct.write d n h2 ∈ acts →
      ∃ files name content, (d, files) ∈ walk ∧ (name, content) ∈ files ∧
        mdSuffix.isSuffixOf name = true ∧ n = output_filename name) :=
  processWalk_spec render template bp walk acts h

theorem c6_witness :
    generate_pages_recursive (fun _ => []) ("t".data) ("/".data)
        [(["blog".data], [("post.md".data, "# P".data)])]
      = Except.ok [FsAct.mkdirp ["blog".data],
          FsAct.write ["blog".data] ("post.html".data) ("t".data)] ∧
    FsAct.mkdirp ["blog".data] ∈
      [FsAct.mkdirp ["blog".data],
       FsAct.write ["blog".data] ("post.html".data) ("t".data)] ∧
    ∃ html, FsAct.write ["blog".data] (output_filename ("post.md".data)) html ∈
      [FsAct.mkdirp ["blog".data],
       FsAct.write ["blog".data] ("post.html".data) ("t".data)] := by
  have hok : generate_pages_recursive (fun _ => []) ("t".data) ("/".data)
      [(["blog".data], [("post.md".data, "# P".data)])]
    = Except.ok [FsAct.mkdirp ["blog".data],
        FsAct.write ["blog".data] ("post.html".data) ("t".data)] := by decide
  have h := c6_mirrored_outputs (fun _ => []) ("t".data) ("/".data)
    [(["blog".data], [("post.md".data, "# P".data)])]
    [FsAct.mkdirp ["blog".data],
     FsAct.write ["blog".data] ("post.html".data) ("t".data)] hok
  have hm := h.1 ["blog".data] [("post.md".data, "# P".data)]
    (List.mem_singleton.mpr rfl) ("post.md".data) ("# P".data)
    (List.mem_singleton.mpr rfl) (by decide)
  exact ⟨hok, hm.1, hm.2⟩

/-- Claim C7, confirmed.  The `{{ Title }}` and `{{ Content }}` substitutions
are plain left-to-right substring replacement of every occurrence: the result
is the body joined at exactly the greedy-split separators of each token, the
split reassembles the original template (so every occurrence is an
occurrence of the literal token), and with zero occurrences the template is
returned unchanged. -/
theorem c7_token_substitution (template title content : List Char) :
    substituteTemplate template title content
      = joinSep content (splitOnL tokContent (joinSep title (splitOnL tokTitle template))) ∧
    joinSep tokTitle (splitOnL tokTitle template) = template ∧
    (occursIn tokTitle template = false → occursIn tokContent template = false →
      substituteTemplate template title content = template) := by
  refine ⟨?_, ?_, ?_⟩
  · show repl tokContent content (repl tokTitle title template) = _
    rw [repl_eq_joinSep_split tokTitle title template.length template (le_refl _)]
    exact repl_eq_joinSep_split tokContent content
      (joinSep title (splitOnL tokTitle template)).length
      (joinSep title (splitOnL tokTitle template)) (le_refl _)
  · exact joinSep_split tokTitle (by decide) template.length template (le_refl _)
  · intro h1 h2
    show repl tokContent content (repl tokTitle title template) = template
    rw [repl_no_occ tokTitle title template.length template (le_refl _) h1]
    exact repl_no_occ tokContent content template.length template (le_refl _) h2

theorem c7_witness :
    occursIn tokTitle ("abc".data) = false ∧
    occursIn tokContent ("abc".data) = false ∧
    substituteTemplate ("abc".data) ("T".data) ("C".data) = "abc".data := by
  refine ⟨by decide, by decide, ?_⟩
  exact (c7_token_substitution ("abc".data) ("T".data) ("C".data)).2.2
    (by decide) (by decide)

/-- Claim C8, corrected.  With the default base path `/` the link-rewriting
step is NOT the identity on every substituted template: a template containing
the `HTMLStaticSite` marker is changed.  (The `href="/` / `src="/` passes are
the identity, see the amended theorem.) -/
theorem c8_counterexample :
    rewriteLinks (normalizeBasepath ("/".data))
      ("<a href=\"HTMLStaticSitefoo\">".data)
      = "<a href=\"/foo\">".data ∧
    ("<a href=\"/foo\">".data : List Char) ≠ "<a href=\"HTMLStaticSitefoo\">".data := by
  decide

/-- Claim C8, amended.  With the default base path `/`, link rewriting is the
identity on every substituted template that contains no
`href="HTMLStaticSite` / `src="HTMLStaticSite` marker; in particular every
occurrence of `href="/about"` remains exactly `href="/about"`. -/
theorem c8_default_identity (s : List Char)
    (h1 : occursIn hrefSite s = false) (h2 : occursIn srcSite s = false) :
    rewriteLinks (normalizeBasepath ['/']) s = s := by
  have e1 : repl hrefSite (hrefQuote ++ normalizeBasepath ['/']) s = s :=
    repl_no_occ _ _ s.length s (le_refl _) h1
  have e2 : repl srcSite (srcQuote ++ normalizeBasepath ['/']) s = s :=
    repl_no_occ _ _ s.length s (le_refl _) h2
  have e3 : repl hrefSlash
      (hrefQuote ++ (rstripSlash (normalizeBasepath ['/']) ++ ['/'])) s = s :=
    repl_self hrefSlash (by decide) s.length s (le_refl _)
  have e4 : repl srcSlash
      (srcQuote ++ (rstripSlash (normalizeBasepath ['/']) ++ ['/'])) s = s :=
    repl_self srcSlash (by decide) s.length s (le_refl _)
  unfold rewriteLinks
  rw [e1, e2, e3, e4]

theorem c8_witness :
    occursIn hrefSite ("<a href=\"/about\">x</a>".data) = false ∧
    occursIn srcSite ("<a href=\"/about\">x</a>".data) = false ∧
    rewriteLinks (normalizeBasepath ['/']) ("<a href=\"/about\">x</a>".data)
      = "<a href=\"/about\">x</a>".data := by
  refine ⟨by decide, by decide, ?_⟩
  exact c8_default_identity ("<a href=\"/about\">x</a>".data) (by decide) (by decide)

/-- Claim C9, confirmed.  The `{{ Title }}` replacement runs first, so a
`{{ Content }}` token contained in the substituted title is itself replaced
by the rendered body in the final output: substituting into the
single-token template `{{ Title }}` yields the title with its `{{ Content }}`
occurrences replaced, and a title that is exactly `{{ Content }}` ends up as
the rendered body. -/
theorem c9_title_before_content (title content : List Char) :
    substituteTemplate tokTitle title content = repl tokContent content title ∧
    substituteTemplate tokTitle tokContent content = content := by
  constructor
  · show repl tokContent content (repl tokTitle title tokTitle) = _
    rw [repl_exact tokTitle title (by decide)]
  · show repl tokContent content (repl tokTitle tokContent tokTitle) = content
    rw [repl_exact tokTitle tokContent (by decide)]
    exact repl_exact tokContent content (by decide)

/-- Claim C10, confirmed.  Normalization appends `/` to any base path not
already ending in `/`; in particular the empty base path normalizes to `/`,
and `generate_page` with base path `""` produces output identical to base
path `"/"` on all inputs. -/
theorem c10_empty_eq_slash :
    (∀ bp : List Char, bp.getLast? ≠ some '/' → normalizeBasepath bp = bp ++ ['/']) ∧
    (∀ (render : List Char → List Char) (md template : List Char),
      generate_page_core render md template []
        = generate_page_core render md template ['/']) := by
  constructor
  · intro bp h
    unfold normalizeBasepath
    rw [if_neg h]
  · intro render md template
    unfold generate_page_core
    simp only [show normalizeBasepath [] = normalizeBasepath ['/'] from by decide]

theorem c10_witness :
    normalizeBasepath ("abc".data) = "abc/".data ∧
    generate_page_core (fun _ => "B".data) ("# T".data) ("x".data) []
      = generate_page_core (fun _ => "B".data) ("# T".data) ("x".data) ['/'] := by
  refine ⟨?_, c10_empty_eq_slash.2 (fun _ => "B".data) ("# T".data) ("x".data)⟩
  exact c10_empty_eq_slash.1 ("abc".data) (by decide)

end Gencontent
